import Mathlib

/-!
Verification of the core of the Symmetric_Polynomials library.

The development shallowly embeds the C++ sources:

* `src/source/Polynomials.h` / `src/source/impl/Polynomials.ipp` — the
  `Polynomial` container: a `std::map` from keys `(degree, exponent)` to
  coefficients, here modelled as a strictly sorted association list
  (`Poly`), sorted by the pair order "degree first, then lexicographic
  comparison of the exponent vectors" that `std::map<std::pair<deg_t,exp_t>>`
  uses.  Coefficients are rationals (the demo instantiates the scalar
  template with the library's `Rational` type).
* `src/source/impl/Symmetric_Basis.ipp` — the generic decomposition engine
  `PolynomialBasis::operator()` (both directions) and the elementary
  symmetric basis (`get_elementary_symmetric`, `find_exponent`).
* `src/source/impl/Generators.ipp` — the combination enumerator.
* `src/source/impl/Half_Idempotent.ipp` and `src/source/Relations.h` — the
  half-idempotent exponent arithmetic, degree functions and the relation
  enumeration of the twisted Chern basis.
-/

namespace SymPoly

/-- Exponent vectors: `std::vector` of signed integers (`int64_t` entries). -/
abbrev Exp := List ℤ

/-- Map keys of the polynomial container: `std::pair<deg_t, exp_t>`. -/
abbrev Key := ℤ × Exp

/-- One monomial entry of the container: key plus coefficient. -/
abbrev Entry := Key × ℚ

/-- A polynomial: the association list underlying
`std::map<std::pair<deg_t,exp_t>, scl_t>`, kept strictly sorted by `keyLt`. -/
abbrev Poly := List Entry

/-- Lexicographic comparison of exponent vectors, as `std::vector::operator<`
(`std::lexicographical_compare`). -/
def lexLt : Exp → Exp → Bool
  | [], [] => false
  | [], _ :: _ => true
  | _ :: _, [] => false
  | a :: as, b :: bs => if a < b then true else if b < a then false else lexLt as bs

/-- Comparison of map keys, as `std::pair::operator<`: degree first, then
lexicographic comparison of the exponents. -/
def keyLt (k l : Key) : Bool :=
  if k.1 < l.1 then true else if l.1 < k.1 then false else lexLt k.2 l.2

theorem lexLt_irrefl : ∀ a : Exp, lexLt a a = false := by
  intro a
  induction a with
  | nil => rfl
  | cons x t ih => simp [lexLt, ih]

theorem lexLt_asymm : ∀ {a b : Exp}, lexLt a b = true → lexLt b a = false := by
  intro a
  induction a with
  | nil =>
    intro b h
    cases b with
    | nil => simp [lexLt] at h
    | cons y s => simp [lexLt]
  | cons x t ih =>
    intro b h
    cases b with
    | nil => simp [lexLt] at h
    | cons y s =>
      simp only [lexLt] at h ⊢
      rcases lt_trichotomy x y with hxy | hxy | hxy
      · simp [hxy, not_lt.2 hxy.le]
      · subst hxy
        simp only [lt_irrefl, if_false] at h ⊢
        exact ih h
      · simp [hxy, not_lt.2 hxy.le] at h

theorem lexLt_trans : ∀ {a b c : Exp}, lexLt a b = true → lexLt b c = true →
    lexLt a c = true := by
  intro a
  induction a with
  | nil =>
    intro b c hab hbc
    cases b <;> cases c <;> simp_all [lexLt]
  | cons x t ih =>
    intro b c hab hbc
    cases b with
    | nil => simp [lexLt] at hab
    | cons y s =>
      cases c with
      | nil => simp [lexLt] at hbc
      | cons z u =>
        simp only [lexLt] at hab hbc ⊢
        rcases lt_trichotomy x y with hxy | hxy | hxy
        · rcases lt_trichotomy y z with hyz | hyz | hyz
          · simp [hxy.trans hyz]
          · subst hyz; simp [hxy]
          · simp [hyz, not_lt.2 hyz.le] at hbc
        · subst hxy
          simp only [lt_irrefl, if_false] at hab
          rcases lt_trichotomy x z with hyz | hyz | hyz
          · simp [hyz]
          · subst hyz
            simp only [lt_irrefl, if_false] at hbc ⊢
            exact ih hab hbc
          · simp [hyz, not_lt.2 hyz.le] at hbc
        · simp [hxy, not_lt.2 hxy.le] at hab

theorem lexLt_trichotomy : ∀ a b : Exp,
    lexLt a b = true ∨ a = b ∨ lexLt b a = true := by
  intro a
  induction a with
  | nil => intro b; cases b <;> simp [lexLt]
  | cons x t ih =>
    intro b
    cases b with
    | nil => simp [lexLt]
    | cons y s =>
      rcases lt_trichotomy x y with hxy | hxy | hxy
      · left; simp [lexLt, hxy]
      · subst hxy
        rcases ih s with h | h | h
        · left; simp [lexLt, h]
        · right; left; rw [h]
        · right; right; simp [lexLt, h]
      · right; right; simp [lexLt, hxy]

theorem keyLt_irrefl (k : Key) : keyLt k k = false := by
  simp [keyLt, lexLt_irrefl]

theorem keyLt_asymm : ∀ {k l : Key}, keyLt k l = true → keyLt l k = false := by
  rintro ⟨kd, ke⟩ ⟨ld, le⟩ h
  simp only [keyLt] at h ⊢
  rcases lt_trichotomy kd ld with h1 | h1 | h1
  · simp [h1, not_lt.2 h1.le]
  · subst h1
    simp only [lt_irrefl, if_false] at h ⊢
    exact lexLt_asymm h
  · simp [h1, not_lt.2 h1.le] at h

theorem keyLt_trans : ∀ {k l m : Key}, keyLt k l = true → keyLt l m = true →
    keyLt k m = true := by
  rintro ⟨kd, ke⟩ ⟨ld, le⟩ ⟨md, me⟩ h1 h2
  simp only [keyLt] at h1 h2 ⊢
  rcases lt_trichotomy kd ld with ha | ha | ha
  · rcases lt_trichotomy ld md with hb | hb | hb
    · simp [ha.trans hb]
    · subst hb; simp [ha]
    · simp [hb, not_lt.2 hb.le] at h2
  · subst ha
    simp only [lt_irrefl, if_false] at h1
    rcases lt_trichotomy kd md with hb | hb | hb
    · simp [hb]
    · subst hb
      simp only [lt_irrefl, if_false] at h2 ⊢
      exact lexLt_trans h1 h2
    · simp [hb, not_lt.2 hb.le] at h2
  · simp [ha, not_lt.2 ha.le] at h1

theorem keyLt_trichotomy : ∀ k l : Key,
    keyLt k l = true ∨ k = l ∨ keyLt l k = true := by
  rintro ⟨kd, ke⟩ ⟨ld, le⟩
  rcases lt_trichotomy kd ld with h1 | h1 | h1
  · left; simp [keyLt, h1]
  · subst h1
    rcases lexLt_trichotomy ke le with h2 | h2 | h2
    · left; simp [keyLt, h2]
    · right; left; rw [h2]
    · right; right; simp [keyLt, h2]
  · right; right; simp [keyLt, h1]

theorem keyLt_ne {k l : Key} (h : keyLt k l = true) : k ≠ l := by
  intro he
  rw [he, keyLt_irrefl] at h
  cases h

theorem keyLt_of_ne {k l : Key} (hne : k ≠ l) (h : keyLt k l = false) :
    keyLt l k = true := by
  rcases keyLt_trichotomy k l with h1 | h1 | h1
  · rw [h1] at h; cases h
  · exact absurd h1 hne
  · exact h1

/-- Coefficient lookup in the association list (0 when the key is absent):
the semantic view of the `std::map` contents. -/
def lookup : Poly → Key → ℚ
  | [], _ => 0
  | e :: t, k => if e.1 = k then e.2 else lookup t k

/-- The accumulating insert `Polynomial::insert_add_erase`
(`impl/Polynomials.ipp`, lines 332-344): emplace the monomial; if the key is
already present, add the value to the stored coefficient and erase the entry
when the sum is 0. -/
def insert_add_erase : Poly → Key → ℚ → Poly
  | [], k, c => [(k, c)]
  | e :: t, k, c =>
    if keyLt k e.1 then (k, c) :: e :: t
    else if k = e.1 then (if e.2 + c = 0 then t else (e.1, e.2 + c) :: t)
    else e :: insert_add_erase t k c

/-- Plain `std::map::emplace`: insert the pair only when the key is absent
(used by the public `Polynomial::insert`). -/
def emplace : Poly → Key → ℚ → Poly
  | [], k, c => [(k, c)]
  | e :: t, k, c =>
    if keyLt k e.1 then (k, c) :: e :: t
    else if k = e.1 then e :: t
    else e :: emplace t k c

/-- Strict sortedness of the association list: the `std::map` invariant. -/
def Sorted (p : Poly) : Prop := p.Pairwise fun e f => keyLt e.1 f.1 = true

/-- No stored entry has coefficient 0. -/
def NoZero (p : Poly) : Prop := ∀ e ∈ p, e.2 ≠ 0

/-- The representation invariant of a polynomial container. -/
def Inv (p : Poly) : Prop := Sorted p ∧ NoZero p

theorem sorted_nil : Sorted [] := List.Pairwise.nil

theorem sorted_cons {e : Entry} {t : Poly} (h : Sorted (e :: t)) : Sorted t :=
  (List.pairwise_cons.1 h).2

theorem sorted_head {e : Entry} {t : Poly} (h : Sorted (e :: t)) :
    ∀ f ∈ t, keyLt e.1 f.1 = true :=
  (List.pairwise_cons.1 h).1

theorem lookup_eq_zero {p : Poly} {k : Key} (h : ∀ f ∈ p, f.1 ≠ k) :
    lookup p k = 0 := by
  induction p with
  | nil => rfl
  | cons e t ih =>
    simp only [lookup]
    rw [if_neg (h e (List.mem_cons_self e t))]
    exact ih fun f hf => h f (List.mem_cons_of_mem _ hf)

theorem lookup_eq_zero_of_head_lt {e : Entry} {t : Poly} (h : Sorted (e :: t))
    {k : Key} (hk : keyLt k e.1 = true) : lookup (e :: t) k = 0 := by
  refine lookup_eq_zero ?_
  intro f hf
  rcases List.mem_cons.1 hf with hf | hf
  · rw [hf]; exact fun he => (keyLt_ne hk) he.symm
  · exact fun he => keyLt_ne (keyLt_trans hk (sorted_head h f hf)) he.symm

theorem lookup_tail_head_zero {e : Entry} {t : Poly} (h : Sorted (e :: t)) :
    lookup t e.1 = 0 := by
  refine lookup_eq_zero ?_
  intro f hf
  exact fun he => keyLt_ne (sorted_head h f hf) he.symm

theorem insert_add_erase_subset {p : Poly} {k : Key} {c : ℚ} :
    ∀ g ∈ insert_add_erase p k c, g.1 = k ∨ g ∈ p := by
  induction p with
  | nil =>
    intro g hg
    simp only [insert_add_erase, List.mem_singleton] at hg
    left; rw [hg]
  | cons e t ih =>
    intro g hg
    simp only [insert_add_erase] at hg
    cases h1 : keyLt k e.1 with
    | true =>
      simp only [h1, if_true] at hg
      rcases List.mem_cons.1 hg with hg | hg
      · left; rw [hg]
      · right; exact hg
    | false =>
      simp only [h1, Bool.false_eq_true, if_false] at hg
      by_cases h2 : k = e.1
      · simp only [h2, if_true] at hg
        by_cases h3 : e.2 + c = 0
        · simp only [h3, if_true] at hg
          right; exact List.mem_cons_of_mem _ hg
        · simp only [h3, if_false] at hg
          rcases List.mem_cons.1 hg with hg | hg
          · left; rw [hg]; exact h2.symm
          · right; exact List.mem_cons_of_mem _ hg
      · simp only [h2, if_false] at hg
        rcases List.mem_cons.1 hg with hg | hg
        · right; rw [hg]; exact List.mem_cons_self e t
        · rcases ih g hg with hh | hh
          · left; exact hh
          · right; exact List.mem_cons_of_mem _ hh

theorem emplace_subset {p : Poly} {k : Key} {c : ℚ} :
    ∀ g ∈ emplace p k c, g = (k, c) ∨ g ∈ p := by
  induction p with
  | nil =>
    intro g hg
    simp only [emplace, List.mem_singleton] at hg
    left; exact hg
  | cons e t ih =>
    intro g hg
    simp only [emplace] at hg
    cases h1 : keyLt k e.1 with
    | true =>
      simp only [h1, if_true] at hg
      rcases List.mem_cons.1 hg with hg | hg
      · left; exact hg
      · right; exact hg
    | false =>
      simp only [h1, Bool.false_eq_true, if_false] at hg
      by_cases h2 : k = e.1
      · simp only [h2, if_true] at hg
        right; exact hg
      · simp only [h2, if_false] at hg
        rcases List.mem_cons.1 hg with hg | hg
        · right; rw [hg]; exact List.mem_cons_self e t
        · rcases ih g hg with hh | hh
          · left; exact hh
          · right; exact List.mem_cons_of_mem _ hh

theorem insert_add_erase_sorted {p : Poly} (h : Sorted p) (k : Key) (c : ℚ) :
    Sorted (insert_add_erase p k c) := by
  induction p with
  | nil => simp [insert_add_erase, Sorted]
  | cons e t ih =>
    have ht : Sorted t := sorted_cons h
    have hhd := sorted_head h
    cases h1 : keyLt k e.1 with
    | true =>
      simp only [insert_add_erase, h1, if_true]
      refine List.pairwise_cons.2 ⟨?_, h⟩
      intro f hf
      rcases List.mem_cons.1 hf with hf | hf
      · rw [hf]; exact h1
      · exact keyLt_trans h1 (hhd f hf)
    | false =>
      simp only [insert_add_erase, h1, Bool.false_eq_true, if_false]
      by_cases h2 : k = e.1
      · simp only [h2, if_true]
        by_cases h3 : e.2 + c = 0
        · simp [h3, ht]
        · simp only [h3, if_false]
          exact List.pairwise_cons.2 ⟨hhd, ht⟩
      · simp only [h2, if_false]
        refine List.pairwise_cons.2 ⟨?_, ih ht⟩
        intro f hf
        rcases insert_add_erase_subset f hf with hf1 | hf1
        · rw [hf1]; exact keyLt_of_ne h2 h1
        · exact hhd f hf1

theorem emplace_sorted {p : Poly} (h : Sorted p) (k : Key) (c : ℚ) :
    Sorted (emplace p k c) := by
  induction p with
  | nil => simp [emplace, Sorted]
  | cons e t ih =>
    have ht : Sorted t := sorted_cons h
    have hhd := sorted_head h
    cases h1 : keyLt k e.1 with
    | true =>
      simp only [emplace, h1, if_true]
      refine List.pairwise_cons.2 ⟨?_, h⟩
      intro f hf
      rcases List.mem_cons.1 hf with hf | hf
      · rw [hf]; exact h1
      · exact keyLt_trans h1 (hhd f hf)
    | false =>
      simp only [emplace, h1, Bool.false_eq_true, if_false]
      by_cases h2 : k = e.1
      · simp only [h2, if_true]; exact h
      · simp only [h2, if_false]
        refine List.pairwise_cons.2 ⟨?_, ih ht⟩
        intro f hf
        rcases emplace_subset f hf with hf1 | hf1
        · rw [hf1]; exact keyLt_of_ne h2 h1
        · exact hhd f hf1

theorem insert_add_erase_lookup {p : Poly} (h : Sorted p) (k : Key) (c : ℚ)
    (j : Key) :
    lookup (insert_add_erase p k c) j = lookup p j + (if j = k then c else 0) := by
  induction p with
  | nil =>
    by_cases hj : j = k
    · simp [insert_add_erase, lookup, hj]
    · have hkj : ¬ (k = j) := fun hh => hj hh.symm
      simp [insert_add_erase, lookup, hj, hkj]
  | cons e t ih =>
    have ht : Sorted t := sorted_cons h
    cases h1 : keyLt k e.1 with
    | true =>
      simp only [insert_add_erase, h1, if_true]
      by_cases hj : j = k
      · rw [hj]
        rw [lookup_eq_zero_of_head_lt h h1]
        simp [lookup]
      · have hkj : ¬ (k = j) := fun hh => hj hh.symm
        simp [lookup, hkj, hj]
    | false =>
      simp only [insert_add_erase, h1, Bool.false_eq_true, if_false]
      by_cases h2 : k = e.1
      · rw [if_pos h2]
        by_cases h3 : e.2 + c = 0
        · rw [if_pos h3]
          by_cases hj : j = k
          · have hje : e.1 = j := by rw [hj, h2]
            have h0 : lookup t j = 0 := by
              rw [← hje]; exact lookup_tail_head_zero h
            rw [h0]
            simp only [lookup, if_pos hje, if_pos hj]
            exact h3.symm
          · have hje : ¬ (e.1 = j) := fun hh => hj (hh.symm.trans h2.symm)
            simp only [lookup, if_neg hje, if_neg hj, add_zero]
        · rw [if_neg h3]
          by_cases hj : j = k
          · have hje : e.1 = j := by rw [hj, h2]
            simp only [lookup, if_pos hje, if_pos hj]
          · have hje : ¬ (e.1 = j) := fun hh => hj (hh.symm.trans h2.symm)
            simp only [lookup, if_neg hje, if_neg hj, add_zero]
      · rw [if_neg h2]
        by_cases hj : j = e.1
        · have hjk : ¬ (j = k) := fun hh => h2 (hh.symm.trans hj)
          have hej : e.1 = j := hj.symm
          simp only [lookup, if_pos hej, if_neg hjk, add_zero]
        · have hej : ¬ (e.1 = j) := fun hh => hj hh.symm
          simp only [lookup, if_neg hej]
          exact ih ht

theorem emplace_lookup_fresh {p : Poly} (h : Sorted p) {k : Key} (c : ℚ)
    (hfresh : ∀ f ∈ p, f.1 ≠ k) (j : Key) :
    lookup (emplace p k c) j = lookup p j + (if j = k then c else 0) := by
  induction p with
  | nil =>
    by_cases hj : j = k
    · simp [emplace, lookup, hj]
    · have hkj : ¬ (k = j) := fun hh => hj hh.symm
      simp [emplace, lookup, hj, hkj]
  | cons e t ih =>
    have ht : Sorted t := sorted_cons h
    cases h1 : keyLt k e.1 with
    | true =>
      simp only [emplace, h1, if_true]
      by_cases hj : j = k
      · rw [hj]
        rw [lookup_eq_zero_of_head_lt h h1]
        simp [lookup]
      · have hkj : ¬ (k = j) := fun hh => hj hh.symm
        simp [lookup, hkj, hj]
    | false =>
      simp only [emplace, h1, Bool.false_eq_true, if_false]
      have h2 : ¬ (k = e.1) := fun hh => hfresh e (List.mem_cons_self e t) hh.symm
      simp only [h2, if_false]
      by_cases hj : j = e.1
      · have hjk : ¬ (j = k) := by rw [hj]; exact fun hh => h2 hh.symm
        have hej : e.1 = j := hj.symm
        simp [lookup, hej, hjk]
      · have hej : ¬ (e.1 = j) := fun hh => hj hh.symm
        simp only [lookup, hej, if_false]
        exact ih ht fun f hf => hfresh f (List.mem_cons_of_mem _ hf)

theorem insert_add_erase_nozero {p : Poly} (h : NoZero p) {k : Key} {c : ℚ}
    (hc : c ≠ 0) : NoZero (insert_add_erase p k c) := by
  induction p with
  | nil =>
    intro g hg
    simp only [insert_add_erase, List.mem_singleton] at hg
    rw [hg]; exact hc
  | cons e t ih =>
    have ht : NoZero t := fun f hf => h f (List.mem_cons_of_mem _ hf)
    intro g hg
    simp only [insert_add_erase] at hg
    cases h1 : keyLt k e.1 with
    | true =>
      simp only [h1, if_true] at hg
      rcases List.mem_cons.1 hg with hg | hg
      · rw [hg]; exact hc
      · exact h g hg
    | false =>
      simp only [h1, Bool.false_eq_true, if_false] at hg
      by_cases h2 : k = e.1
      · simp only [h2, if_true] at hg
        by_cases h3 : e.2 + c = 0
        · simp only [h3, if_true] at hg
          exact ht g hg
        · simp only [h3, if_false] at hg
          rcases List.mem_cons.1 hg with hg | hg
          · rw [hg]; exact h3
          · exact ht g hg
      · simp only [h2, if_false] at hg
        rcases List.mem_cons.1 hg with hg | hg
        · rw [hg]; exact h e (List.mem_cons_self e t)
        · exact ih ht g hg

theorem emplace_nozero {p : Poly} (h : NoZero p) {k : Key} {c : ℚ}
    (hc : c ≠ 0) : NoZero (emplace p k c) := by
  intro g hg
  rcases emplace_subset g hg with hg1 | hg1
  · rw [hg1]; exact hc
  · exact h g hg1
/-- Key addition for monomial products: `operator+` on `std::pair` keys,
parametrized by the exponent type's `operator+` (`expAdd`). -/
def keyAdd (expAdd : Exp → Exp → Exp) (k l : Key) : Key :=
  (k.1 + l.1, expAdd k.2 l.2)

/-- `Polynomial::operator+=` (`impl/Polynomials.ipp`, lines 198-205):
`insert_add_erase` every monomial of the right-hand side, in container
order. -/
def addPoly (p q : Poly) : Poly :=
  q.foldl (fun a e => insert_add_erase a e.1 e.2) p

/-- `Polynomial::operator-=` (`impl/Polynomials.ipp`, lines 207-214). -/
def subPoly (p q : Poly) : Poly :=
  q.foldl (fun a e => insert_add_erase a e.1 (-e.2)) p

/-- `Polynomial::operator*` (`impl/Polynomials.ipp`, lines 236-245): full
Cauchy product, accumulating each pairwise monomial product into a fresh
polynomial. -/
def mulPoly (expAdd : Exp → Exp → Exp) (p q : Poly) : Poly :=
  p.foldl
    (fun a e =>
      q.foldl (fun b f => insert_add_erase b (keyAdd expAdd e.1 f.1) (e.2 * f.2)) a)
    []

/-- `Polynomial::operator*=(scl_t)` (`impl/Polynomials.ipp`, lines 254-265):
clear on 0, no-op on 1, otherwise scale every stored coefficient. -/
def smulPoly (c : ℚ) (p : Poly) : Poly :=
  if c = 0 then [] else if c = 1 then p else p.map fun e => (e.1, e.2 * c)

/-- `Polynomial::highest_term` for the ordered container
(`impl/Polynomials.ipp`, lines 180-196): `std::prev(data.end())`; on an empty
map this is undefined behaviour, modelled as `none`. -/
def highest_term (p : Poly) : Option Entry := p.getLast?

/-- `Polynomial::highest_term` for the unordered container: linear scan over
the container (in whatever iteration order the hash map produces, here the
list order), keeping the entry that is larger in degree, then in
lexicographic exponent order.  On an empty map `begin()` equals `end()` and
the result is undefined behaviour, modelled as `none`. -/
def highest_term_unordered (l : List Entry) : Option Entry :=
  match l with
  | [] => none
  | x :: t =>
    some (t.foldl
      (fun maxit it =>
        if maxit.1.1 < it.1.1 ∨ (maxit.1.1 = it.1.1 ∧ lexLt maxit.1.2 it.1.2) then it
        else maxit)
      x)

theorem foldl_iae_sorted (κ : Entry → Key) (ν : Entry → ℚ) :
    ∀ (l : List Entry) {p : Poly}, Sorted p →
      Sorted (l.foldl (fun a e => insert_add_erase a (κ e) (ν e)) p) := by
  intro l
  induction l with
  | nil => intro p h; exact h
  | cons e t ih =>
    intro p h
    exact ih (insert_add_erase_sorted h (κ e) (ν e))

theorem foldl_iae_lookup (κ : Entry → Key) (ν : Entry → ℚ) :
    ∀ (l : List Entry) {p : Poly}, Sorted p → ∀ j,
      lookup (l.foldl (fun a e => insert_add_erase a (κ e) (ν e)) p) j =
        lookup p j + (l.map fun e => if κ e = j then ν e else 0).sum := by
  intro l
  induction l with
  | nil => intro p h j; simp
  | cons e t ih =>
    intro p h j
    have h2 : Sorted (insert_add_erase p (κ e) (ν e)) :=
      insert_add_erase_sorted h (κ e) (ν e)
    simp only [List.foldl_cons, List.map_cons, List.sum_cons]
    rw [ih h2 j, insert_add_erase_lookup h (κ e) (ν e) j]
    have : (if j = κ e then ν e else 0) = (if κ e = j then ν e else 0) := by
      by_cases hj : j = κ e
      · simp [hj]
      · have : ¬ (κ e = j) := fun hh => hj hh.symm
        simp [hj, this]
    rw [this]
    ring

theorem foldl_iae_nozero (κ : Entry → Key) (ν : Entry → ℚ) :
    ∀ (l : List Entry) {p : Poly}, NoZero p → (∀ e ∈ l, ν e ≠ 0) →
      NoZero (l.foldl (fun a e => insert_add_erase a (κ e) (ν e)) p) := by
  intro l
  induction l with
  | nil => intro p h _; exact h
  | cons e t ih =>
    intro p h hl
    exact ih (insert_add_erase_nozero h (hl e (List.mem_cons_self e t)))
      fun f hf => hl f (List.mem_cons_of_mem _ hf)

theorem sum_ite_lookup {q : Poly} (h : Sorted q) (j : Key) :
    (q.map fun e => if e.1 = j then e.2 else 0).sum = lookup q j := by
  induction q with
  | nil => simp [lookup]
  | cons e t ih =>
    simp only [List.map_cons, List.sum_cons, lookup]
    by_cases hj : e.1 = j
    · rw [if_pos hj, if_pos hj]
      have : ∀ f ∈ t, f.1 ≠ j := by
        intro f hf he
        exact keyLt_ne (sorted_head h f hf) (hj.trans he.symm)
      have hz : (t.map fun e => if e.1 = j then e.2 else 0).sum = 0 := by
        rw [ih (sorted_cons h)]
        exact lookup_eq_zero this
      rw [hz]
      ring
    · rw [if_neg hj, if_neg hj, ih (sorted_cons h)]
      ring

theorem addPoly_lookup {p q : Poly} (hp : Sorted p) (hq : Sorted q) (j : Key) :
    lookup (addPoly p q) j = lookup p j + lookup q j := by
  unfold addPoly
  rw [foldl_iae_lookup Prod.fst Prod.snd q hp j, sum_ite_lookup hq]

theorem subPoly_lookup {p q : Poly} (hp : Sorted p) (hq : Sorted q) (j : Key) :
    lookup (subPoly p q) j = lookup p j - lookup q j := by
  unfold subPoly
  rw [foldl_iae_lookup Prod.fst (fun e => -e.2) q hp j]
  have : ∀ q : List Entry, (q.map fun e => if e.1 = j then -e.2 else 0).sum =
      -(q.map fun e => if e.1 = j then e.2 else 0).sum := by
    intro q
    induction q with
    | nil => simp
    | cons e t ih =>
      by_cases hj : e.1 = j <;> simp [hj, ih] <;> ring
  rw [this q, sum_ite_lookup hq]
  ring

theorem addPoly_sorted {p q : Poly} (hp : Sorted p) : Sorted (addPoly p q) :=
  foldl_iae_sorted Prod.fst Prod.snd q hp

theorem subPoly_sorted {p q : Poly} (hp : Sorted p) : Sorted (subPoly p q) :=
  foldl_iae_sorted Prod.fst (fun e => -e.2) q hp

theorem addPoly_nozero {p q : Poly} (hp : NoZero p) (hq : NoZero q) :
    NoZero (addPoly p q) :=
  foldl_iae_nozero Prod.fst Prod.snd q hp hq

theorem subPoly_nozero {p q : Poly} (hp : NoZero p) (hq : NoZero q) :
    NoZero (subPoly p q) :=
  foldl_iae_nozero Prod.fst (fun e => -e.2) q hp fun e he hz =>
    hq e he (by rwa [neg_eq_zero] at hz)

theorem smulPoly_lookup (c : ℚ) (p : Poly) (j : Key) :
    lookup (smulPoly c p) j = lookup p j * c := by
  unfold smulPoly
  by_cases h0 : c = 0
  · simp [h0, lookup]
  · rw [if_neg h0]
    by_cases h1 : c = 1
    · simp [h1]
    · rw [if_neg h1]
      induction p with
      | nil => simp [lookup]
      | cons e t ih =>
        simp only [List.map_cons, lookup]
        by_cases hj : e.1 = j
        · simp [hj]
        · simp only [hj, if_false, ih]

theorem smulPoly_sorted {p : Poly} (h : Sorted p) (c : ℚ) :
    Sorted (smulPoly c p) := by
  unfold smulPoly
  by_cases h0 : c = 0
  · simp [h0, Sorted]
  · rw [if_neg h0]
    by_cases h1 : c = 1
    · simp [h1, h]
    · rw [if_neg h1]
      exact List.pairwise_map.2 h

theorem smulPoly_nozero {p : Poly} (h : NoZero p) (c : ℚ) :
    NoZero (smulPoly c p) := by
  unfold smulPoly
  by_cases h0 : c = 0
  · simp [h0, NoZero]
  · rw [if_neg h0]
    by_cases h1 : c = 1
    · simp [h1]; exact h
    · rw [if_neg h1]
      intro g hg
      rcases List.mem_map.1 hg with ⟨e, he, hge⟩
      rw [← hge]
      exact mul_ne_zero (h e he) h0

theorem mulPoly_sorted (expAdd : Exp → Exp → Exp) (p q : Poly) :
    Sorted (mulPoly expAdd p q) := by
  unfold mulPoly
  have : ∀ (l : List Entry) (a : Poly), Sorted a →
      Sorted (l.foldl
        (fun a e =>
          q.foldl (fun b f => insert_add_erase b (keyAdd expAdd e.1 f.1) (e.2 * f.2)) a)
        a) := by
    intro l
    induction l with
    | nil => intro a ha; exact ha
    | cons e t ih =>
      intro a ha
      exact ih _ (foldl_iae_sorted (fun f => keyAdd expAdd e.1 f.1) (fun f => e.2 * f.2) q ha)
  exact this p [] sorted_nil

theorem mulPoly_nozero (expAdd : Exp → Exp → Exp) {p q : Poly}
    (hp : NoZero p) (hq : NoZero q) : NoZero (mulPoly expAdd p q) := by
  unfold mulPoly
  have : ∀ (l : List Entry), (∀ e ∈ l, e.2 ≠ 0) → ∀ (a : Poly), NoZero a →
      NoZero (l.foldl
        (fun a e =>
          q.foldl (fun b f => insert_add_erase b (keyAdd expAdd e.1 f.1) (e.2 * f.2)) a)
        a) := by
    intro l
    induction l with
    | nil => intro _ a ha; exact ha
    | cons e t ih =>
      intro hl a ha
      refine ih (fun f hf => hl f (List.mem_cons_of_mem _ hf)) _ ?_
      exact foldl_iae_nozero (fun f => keyAdd expAdd e.1 f.1) (fun f => e.2 * f.2) q ha
        fun f hf => mul_ne_zero (hl e (List.mem_cons_self e t)) (hq f hf)
  exact this p hp [] (fun g hg => absurd hg (List.not_mem_nil g))

/-- The bilinear convolution sum: value of the Cauchy product at a key. -/
def convAt (expAdd : Exp → Exp → Exp) (p q : Poly) (j : Key) : ℚ :=
  (p.map fun e =>
    (q.map fun f => if keyAdd expAdd e.1 f.1 = j then e.2 * f.2 else 0).sum).sum

theorem mulPoly_lookup (expAdd : Exp → Exp → Exp) (p q : Poly) (j : Key) :
    lookup (mulPoly expAdd p q) j = convAt expAdd p q j := by
  unfold mulPoly convAt
  have : ∀ (l : List Entry) (a : Poly), Sorted a →
      lookup (l.foldl
        (fun a e =>
          q.foldl (fun b f => insert_add_erase b (keyAdd expAdd e.1 f.1) (e.2 * f.2)) a)
        a) j =
      lookup a j +
        (l.map fun e =>
          (q.map fun f => if keyAdd expAdd e.1 f.1 = j then e.2 * f.2 else 0).sum).sum := by
    intro l
    induction l with
    | nil => intro a ha; simp
    | cons e t ih =>
      intro a ha
      simp only [List.foldl_cons, List.map_cons, List.sum_cons]
      rw [ih _ (foldl_iae_sorted (fun f => keyAdd expAdd e.1 f.1) (fun f => e.2 * f.2) q ha)]
      rw [foldl_iae_lookup (fun f => keyAdd expAdd e.1 f.1) (fun f => e.2 * f.2) q ha j]
      ring
  rw [this p [] sorted_nil]
  simp [lookup]

/-- Structural extensionality: two polynomials satisfying the container
invariant with the same coefficient function are the same container. -/
theorem ext_lookup : ∀ {p q : Poly}, Inv p → Inv q →
    (∀ k, lookup p k = lookup q k) → p = q := by
  intro p
  induction p with
  | nil =>
    intro q _ hq hl
    cases q with
    | nil => rfl
    | cons f s =>
      exfalso
      have : lookup (f :: s) f.1 = f.2 := by simp [lookup]
      have h0 : (0 : ℚ) = f.2 := by rw [← hl f.1] at this; exact this
      exact hq.2 f (List.mem_cons_self f s) h0.symm
  | cons e t ih =>
    intro q hp hq hl
    cases q with
    | nil =>
      exfalso
      have : lookup (e :: t) e.1 = e.2 := by simp [lookup]
      have h0 : e.2 = 0 := by rw [hl e.1] at this; exact this.symm
      exact hp.2 e (List.mem_cons_self e t) h0
    | cons f s =>
      have hkey : e.1 = f.1 := by
        rcases keyLt_trichotomy e.1 f.1 with h1 | h1 | h1
        · exfalso
          have hz : lookup (f :: s) e.1 = 0 := lookup_eq_zero_of_head_lt hq.1 h1
          have he : lookup (e :: t) e.1 = e.2 := by simp [lookup]
          have : e.2 = 0 := by rw [← hz, ← hl e.1, he]
          exact hp.2 e (List.mem_cons_self e t) this
        · exact h1
        · exfalso
          have hz : lookup (e :: t) f.1 = 0 := lookup_eq_zero_of_head_lt hp.1 h1
          have he : lookup (f :: s) f.1 = f.2 := by simp [lookup]
          have : f.2 = 0 := by rw [← he, ← hl f.1, hz]
          exact hq.2 f (List.mem_cons_self f s) this
      have hval : e.2 = f.2 := by
        have he : lookup (e :: t) e.1 = e.2 := by simp [lookup]
        have hf : lookup (f :: s) e.1 = f.2 := by simp [lookup, hkey]
        rw [← he, hl e.1, hf]
      have htl : t = s := by
        refine ih ⟨sorted_cons hp.1, fun g hg => hp.2 g (List.mem_cons_of_mem _ hg)⟩
          ⟨sorted_cons hq.1, fun g hg => hq.2 g (List.mem_cons_of_mem _ hg)⟩ ?_
        intro k
        by_cases hk : k = e.1
        · rw [hk]
          rw [lookup_tail_head_zero hp.1]
          rw [hkey, lookup_tail_head_zero hq.1]
        · have hke : ¬ (e.1 = k) := fun hh => hk hh.symm
          have h1 : lookup (e :: t) k = lookup t k := by
            simp [lookup, hke]
          have h2 : lookup (f :: s) k = lookup s k := by
            have hfk : ¬ (f.1 = k) := by rw [← hkey]; exact hke
            simp [lookup, hfk]
          rw [← h1, hl k, h2]
      have hhd : e = f := Prod.ext hkey hval
      rw [hhd, htl]

theorem getLast?_mem : ∀ {l : List Entry} {m : Entry}, l.getLast? = some m → m ∈ l := by
  intro l
  induction l with
  | nil => intro m hm; cases hm
  | cons e t ih =>
    intro m hm
    cases t with
    | nil =>
      rw [List.getLast?_singleton] at hm
      rw [Option.some.injEq] at hm
      rw [← hm]
      exact List.mem_cons_self e []
    | cons f s =>
      rw [List.getLast?_cons_cons] at hm
      exact List.mem_cons_of_mem _ (ih hm)

theorem lookup_mem {p : Poly} (h : Sorted p) : ∀ e ∈ p, lookup p e.1 = e.2 := by
  induction p with
  | nil => intro e he; cases he
  | cons f t ih =>
    intro e he
    rcases List.mem_cons.1 he with he | he
    · rw [he]; simp [lookup]
    · have hne : ¬ (f.1 = e.1) := fun hh => keyLt_ne (sorted_head h e he) hh
      simp only [lookup, if_neg hne]
      exact ih (sorted_cons h) e he

theorem mem_unique_key {p : Poly} (h : Sorted p) :
    ∀ e ∈ p, ∀ f ∈ p, e.1 = f.1 → e = f := by
  induction p with
  | nil => intro e he; cases he
  | cons g t ih =>
    intro e he f hf hef
    rcases List.mem_cons.1 he with he | he <;> rcases List.mem_cons.1 hf with hf | hf
    · rw [he, hf]
    · exfalso
      have := sorted_head h f hf
      rw [← he, hef] at this
      exact keyLt_ne this rfl
    · exfalso
      have := sorted_head h e he
      rw [← hf, ← hef] at this
      exact keyLt_ne this rfl
    · exact ih (sorted_cons h) e he f hf hef

theorem getLast?_max {p : Poly} (h : Sorted p) {m : Entry}
    (hm : p.getLast? = some m) : ∀ e ∈ p, e = m ∨ keyLt e.1 m.1 = true := by
  induction p with
  | nil => intro e he; cases he
  | cons f t ih =>
    intro e he
    cases t with
    | nil =>
      rw [List.getLast?_singleton] at hm
      rw [Option.some.injEq] at hm
      rcases List.mem_cons.1 he with he | he
      · left; rw [he, ← hm]
      · cases he
    | cons g s =>
      rw [List.getLast?_cons_cons] at hm
      rcases List.mem_cons.1 he with he | he
      · right
        have hmem : m ∈ g :: s := getLast?_mem hm
        have := sorted_head h m hmem
        rw [he]
        exact this
      · exact ih (sorted_cons h) hm e he

theorem last_of_max : ∀ {p : Poly}, Sorted p → ∀ {m : Entry}, m ∈ p →
    (∀ e ∈ p, e ≠ m → keyLt e.1 m.1 = true) → p.getLast? = some m := by
  intro p
  induction p with
  | nil => intro _ m hm; cases hm
  | cons f t ih =>
    intro h m hm hmax
    cases t with
    | nil =>
      rcases List.mem_cons.1 hm with hm | hm
      · rw [List.getLast?_singleton, hm]
      · cases hm
    | cons g s =>
      rw [List.getLast?_cons_cons]
      have hmt : m ∈ g :: s := by
        rcases List.mem_cons.1 hm with hm | hm
        · exfalso
          have hgm : g ≠ m := by
            intro hgm
            have := sorted_head h g (List.mem_cons_self g s)
            rw [hgm, ← hm] at this
            exact keyLt_ne this rfl
          have h1 := hmax g (List.mem_cons_of_mem _ (List.mem_cons_self g s)) hgm
          have h2 := sorted_head h g (List.mem_cons_self g s)
          rw [hm] at h1
          have h3 := keyLt_asymm h2
          rw [h1] at h3
          cases h3
        · exact hm
      exact ih (sorted_cons h) hmt
        fun e he hne => hmax e (List.mem_cons_of_mem _ he) hne

theorem lookup_last {p : Poly} (h : Sorted p) {m : Entry}
    (hm : p.getLast? = some m) : lookup p m.1 = m.2 :=
  lookup_mem h m (getLast?_mem hm)

theorem lookup_gt_last {p : Poly} (h : Sorted p) {m : Entry}
    (hm : p.getLast? = some m) {j : Key} (hj : keyLt m.1 j = true) :
    lookup p j = 0 := by
  refine lookup_eq_zero ?_
  intro f hf he
  rcases getLast?_max h hm f hf with h1 | h1
  · rw [h1] at he
    exact keyLt_ne hj he
  · exact keyLt_ne (keyLt_trans h1 hj) he

theorem lookup_ne_zero_mem : ∀ {p : Poly} {j : Key}, lookup p j ≠ 0 →
    ∃ c, (j, c) ∈ p ∧ lookup p j = c := by
  intro p
  induction p with
  | nil => intro j hj; exact absurd rfl hj
  | cons e t ih =>
    intro j hj
    by_cases he : e.1 = j
    · refine ⟨e.2, ?_, ?_⟩
      · have : e = (j, e.2) := Prod.ext he rfl
        rw [← this]
        exact List.mem_cons_self e t
      · simp [lookup, he]
    · simp only [lookup, if_neg he] at hj ⊢
      rcases ih hj with ⟨c, hc1, hc2⟩
      exact ⟨c, List.mem_cons_of_mem _ hc1, hc2⟩

theorem nonempty_getLast {p : Poly} (h : p ≠ []) : ∃ m, p.getLast? = some m := by
  have := List.getLast?_isSome.2 h
  cases hm : p.getLast? with
  | none => rw [hm] at this; cases this
  | some m => exact ⟨m, rfl⟩

/-- Degree of a `Standard_Variables` exponent (`impl/Symmetric_Basis.ipp`,
lines 10-17): sum of the entries. -/
def stdDeg (e : Exp) : ℤ := e.sum

/-- Degree of an `Elementary_Symmetric_Variables` exponent (lines 40-47):
`Σ e[i]·(i+1)`. -/
def esymDeg (e : Exp) : ℤ :=
  (List.zipWith (fun a i => a * ((i : ℤ) + 1)) e (List.range e.length)).sum

/-- `Standard_Variables::operator+` (lines 25-32): pointwise addition. -/
def stdAdd (a b : Exp) : Exp := List.zipWith (· + ·) a b

/-- `Polynomial::insert` (`impl/Polynomials.ipp`, lines 122-126): compute the
degree of the exponent with the degree function `δ` and emplace the pair;
nothing happens when a monomial with this exponent is already present. -/
def insertMono (δ : Exp → ℤ) (p : Poly) (e : Exp) (c : ℚ) : Poly :=
  emplace p (δ e, e) c

/-- The constant polynomial `Polynomial(number_of_variables, coeff)`: one
monomial with the all-zero exponent. -/
def constPoly (δ : Exp → ℤ) (n : ℕ) (c : ℚ) : Poly :=
  insertMono δ [] (List.replicate n 0) c

/-- `Polynomial::operator^` (`impl/Polynomials.ipp`, lines 267-282): the
constant 1 for power 0, the polynomial itself for power 1, otherwise `p-1`
further multiplications (for negative powers the loop body does not run and
the polynomial is returned unchanged, as in the source). -/
def powPoly (expAdd : Exp → Exp → Exp) (δ : Exp → ℤ) (n : ℕ) (p : Poly) (k : ℤ) : Poly :=
  if k = 0 then constPoly δ n 1
  else if k = 1 then p
  else (List.range (k - 1).toNat).foldl (fun a _ => mulPoly expAdd a p) p

/-- The data of one `PolynomialBasis` specialization: number of original
variables, degree function and exponent addition of the original variables,
the generator polynomials, the degree function for generator-coordinate
exponents, and the family-specific `find_exponent` hook. -/
structure Basis where
  numVars : ℕ
  degO : Exp → ℤ
  expAdd : Exp → Exp → Exp
  gens : List Poly
  degG : Exp → ℤ
  fexp : Exp → Exp

/-- `PolynomialBasis::compute_product` (`impl/Symmetric_Basis.ipp`, lines
111-119): the product of the generator powers named by a generator-coordinate
exponent, starting from the constant polynomial 1. -/
def computeProduct (B : Basis) (exponent : Exp) : Poly :=
  (List.range B.gens.length).foldl
    (fun a i =>
      if exponent.getD i 0 ≠ 0 then
        mulPoly B.expAdd a
          (powPoly B.expAdd B.degO B.numVars (B.gens.getD i []) (exponent.getD i 0))
      else a)
    (constPoly B.degO B.numVars 1)

/-- The forward-decomposition loop of `PolynomialBasis::operator()`
(`impl/Symmetric_Basis.ipp`, lines 55-75), with explicit fuel standing in
for the termination that the C++ `while (true)` loop does not establish.
`none` models both fuel exhaustion and the undefined behaviour of
dereferencing `highest_term()` of an empty container. -/
def forwardLoop (B : Basis) : ℕ → Poly → Poly → Option Poly
  | 0, _, _ => none
  | fuel + 1, a, dec =>
    match highest_term a with
    | none => none
    | some mx =>
      let exponent := B.fexp mx.1.2
      let product := computeProduct B exponent
      match highest_term product with
      | none => none
      | some ph =>
        let coeff := mx.2 / ph.2
        let dec2 := insertMono B.degG dec exponent coeff
        let product2 := smulPoly coeff product
        if a = product2 then some dec2
        else forwardLoop B fuel (subPoly a product2) dec2

/-- The forward decomposition: the loop started on the input polynomial with
an empty decomposition. -/
def forward (B : Basis) (fuel : ℕ) (a : Poly) : Option Poly := forwardLoop B fuel a []

/-- The forward loop instrumented to record the key (degree and exponent) of
`a.highest_term()` at every iteration. -/
def forwardLoopTrace (B : Basis) : ℕ → Poly → Poly → Option (List Key × Poly)
  | 0, _, _ => none
  | fuel + 1, a, dec =>
    match highest_term a with
    | none => none
    | some mx =>
      let exponent := B.fexp mx.1.2
      let product := computeProduct B exponent
      match highest_term product with
      | none => none
      | some ph =>
        let coeff := mx.2 / ph.2
        let dec2 := insertMono B.degG dec exponent coeff
        let product2 := smulPoly coeff product
        if a = product2 then some ([mx.1], dec2)
        else
          match forwardLoopTrace B fuel (subPoly a product2) dec2 with
          | none => none
          | some (tr, d) => some (mx.1 :: tr, d)

/-- The instrumented forward decomposition. -/
def forwardTrace (B : Basis) (fuel : ℕ) (a : Poly) : Option (List Key × Poly) :=
  forwardLoopTrace B fuel a []

/-- The backward expansion `PolynomialBasis::operator()`
(`impl/Symmetric_Basis.ipp`, lines 77-88): accumulate
`coeff * compute_product(exponent)` over the terms of the input. -/
def backward (B : Basis) (a : Poly) : Poly :=
  a.foldl (fun p e => addPoly p (smulPoly e.2 (computeProduct B e.1.2))) []

/-- One step of `Combination_Generator::const_iterator::update`
(`impl/Generators.ipp`, lines 89-101): the rightmost position `i` with
`generated[i] < total - choices + i` is incremented and the following
positions are reset to consecutive successors; when no such position exists
the enumeration is complete (`none`). -/
def combNext (total : ℕ) (v : List ℕ) : Option (List ℕ) :=
  match (List.range v.length).reverse.find? (fun i => v.getD i 0 + v.length < total + i) with
  | none => none
  | some i => some (v.take i ++ List.range' (v.getD i 0 + 1) (v.length - i))

/-- Iteration of the combination enumerator from a given state, collecting
every generated combination.  The fuel bounds the number of iterations. -/
def combRun (total : ℕ) : ℕ → List ℕ → List (List ℕ)
  | 0, _ => []
  | fuel + 1, v =>
    v :: (match combNext total v with
          | none => []
          | some w => combRun total fuel w)

/-- All `choices`-combinations of `{0,...,total-1}` in enumeration order,
starting from `[0,...,choices-1]`.  The fuel `(total+1)^choices` strictly
bounds the number of iterations because the enumeration is strictly
lexicographically increasing.  `choices > total` aborts in the source. -/
def allCombs (total choices : ℕ) : List (List ℕ) :=
  if choices ≤ total then combRun total ((total + 1) ^ choices) (List.range choices)
  else []

/-- The exponent with 1 in the slots of a combination and 0 elsewhere (the
monomial built by the insertion loop of `get_elementary_symmetric`). -/
def indicator (n : ℕ) (comb : List ℕ) : Exp :=
  (List.range n).map fun j => if j ∈ comb then 1 else 0

/-- `SymmetricBasis::get_elementary_symmetric` (`impl/Symmetric_Basis.ipp`,
lines 129-144): one coefficient-1 monomial per `i`-combination of the
variable indices. -/
def get_elementary_symmetric (n : ℕ) (i : ℕ) : Poly :=
  (allCombs n i).foldl (fun p comb => insertMono stdDeg p (indicator n comb) 1) []

/-- `SymmetricBasis::find_exponent` (`impl/Symmetric_Basis.ipp`, lines
146-159): staircase differencing `[a_1-a_2, ..., a_{n-1}-a_n, a_n]` of the
exponent vector `[a_1,...,a_n]`. -/
def find_exponentE (term : Exp) : Exp :=
  (List.range term.length).map fun i =>
    if i + 1 = term.length then term.getD i 0 else term.getD i 0 - term.getD (i + 1) 0

/-- The elementary symmetric basis `SymmetricBasis` on `n` variables
(constructor at `impl/Symmetric_Basis.ipp`, lines 121-127). -/
def eBasis (n : ℕ) : Basis :=
  { numVars := n
    degO := stdDeg
    expAdd := stdAdd
    gens := (List.range n).map fun i => get_elementary_symmetric n (i + 1)
    degG := esymDeg
    fexp := find_exponentE }

/-- `Half_Idempotent_Variables::degree` (`impl/Half_Idempotent.ipp`, lines
24-31): sum of the first `size/2` entries (the x-block). -/
def hiDeg (v : Exp) : ℤ := (v.take (v.length / 2)).sum

/-- The y-block clamp performed after combining half-idempotent exponents:
entries of the second half become 1 when positive and 0 otherwise
(`v[i] = (v[i] > 0)`). -/
def clampY (v : Exp) : Exp :=
  (List.range v.length).map fun i =>
    if v.length / 2 ≤ i then (if 0 < v.getD i 0 then 1 else 0) else v.getD i 0

/-- `Half_Idempotent_Variables::operator+` (`impl/Half_Idempotent.ipp`,
lines 33-42): pointwise addition followed by the y-block clamp. -/
def hiAdd (a b : Exp) : Exp := clampY (List.zipWith (· + ·) a b)

/-- `Half_Idempotent_Variables::operator-` (`impl/Half_Idempotent.ipp`,
lines 44-53): pointwise subtraction followed by the y-block clamp. -/
def hiSub (a b : Exp) : Exp := clampY (List.zipWith (· - ·) a b)

/-- `halfidempotent::compute_degree` (`Relations.h`, lines 74-77):
`sum(exponent, exponent.size()/2)` where `sum(a, end)` (`General.h`, lines
68-75) starts from `a[0]` — undefined on an empty vector, modelled as
`none` — and then adds `a[1], ..., a[end-1]`. -/
def compute_degree_hi (v : Exp) : Option ℤ :=
  match v with
  | [] => none
  | x :: _ =>
    some (x + ((List.range (v.length / 2 - 1)).map fun i => v.getD (i + 1) 0).sum)

/-- The `(s,i)` double indices of the twisted-Chern generators in the
enumeration order of `Half_Idempotent_Basis::set_generators`
(`impl/Half_Idempotent.ipp`, lines 142-167): `s` from 0 to `n`, `i` from 0 to
`n-s`, skipping `(0,0)`. -/
def genPairs (n : ℕ) : List (ℕ × ℕ) :=
  ((List.range (n + 1)).flatMap fun s => (List.range (n + 1 - s)).map fun i => (s, i)).filter
    fun p => p ≠ (0, 0)

/-- `generator_double_index` / `Half_Idempotent_Basis::index`: the position a
double index receives in the generator enumeration. -/
def gdi (n : ℕ) (s i : ℕ) : ℕ :=
  @List.indexOf (ℕ × ℕ) instBEqOfDecidableEq (s, i) (genPairs n)

/-- `number_of_generators = n + (n²+n)/2` (`impl/Half_Idempotent.ipp`, line
86). -/
def numGens (n : ℕ) : ℕ := n + (n * n + n) / 2

/-- Increment position `k` of a generator-index-space exponent
(the `comb[...]++` of `set_relations`). -/
def bumpAt (v : List ℕ) (k : ℕ) : List ℕ := v.set k (v.getD k 0 + 1)

/-- The generator-index-space monomial recorded for the product of the
generators with double indices `(s,i)` and `(t,j)`. -/
def relComb (n : ℕ) (s i t j : ℕ) : List ℕ :=
  bumpAt (bumpAt (List.replicate (numGens n) 0) (gdi n s i)) (gdi n t j)

/-- `Half_Idempotent_Basis::set_relations` (`impl/Half_Idempotent.ipp`, lines
169-184): the quadruple loop over `0 ≤ s ≤ t < n`, `1 ≤ i ≤ n-s`,
`1 ≤ j ≤ n-t` recording one generator-index-space monomial per kept pair;
pairs with `t > s+i`, symmetric duplicates (`s = t` and `j < i`) and
`a`-relations derivable from simpler ones (`s = 0` and `t ≠ i`) are
skipped. -/
def set_relations (n : ℕ) : List (List ℕ) :=
  (List.range n).flatMap fun s =>
    (List.range' s (n - s)).flatMap fun t =>
      (List.range' 1 (n - s)).flatMap fun i =>
        (List.range' 1 (n - t)).filterMap fun j =>
          if t > s + i ∨ (s = t ∧ j < i) ∨ (s = 0 ∧ t ≠ i) then none
          else some (relComb n s i t j)

/-- The letters not in the chosen x-combination
(`letters_not_in_comb_x` of `create_generator`). -/
def lettersNotIn (n : ℕ) (cx : List ℕ) : List ℕ :=
  (List.range n).filter fun j => j ∉ cx

/-- `Half_Idempotent_Basis::create_generator` (`impl/Half_Idempotent.ipp`,
lines 110-140): for every `s`-combination of x-slots and every
`i`-combination of the remaining letters (used as shifted y-slots), insert
the coefficient-1 monomial with those slots set to 1. -/
def create_generator (n s i : ℕ) : Poly :=
  (allCombs n s).foldl
    (fun p cx =>
      (allCombs (n - s) i).foldl
        (fun q cy =>
          let letters := lettersNotIn n cx
          let mono : Exp := (List.range (2 * n)).map fun pos =>
            if pos < n then (if pos ∈ cx then 1 else 0)
            else if (pos - n) ∈ cy.map (fun j => letters.getD j 0) then 1 else 0
          insertMono hiDeg q mono 1)
        p)
    []

/-- The generator list of the twisted-Chern basis, in `set_generators`
order. -/
def chernGens (n : ℕ) : List Poly :=
  (genPairs n).map fun p => create_generator n p.1 p.2

/-- The dimension table `generator_dimensions` of the twisted-Chern basis:
generator `(s,i)` has dimension `s`. -/
def chernDims (n : ℕ) : List ℤ := (genPairs n).map fun p => (p.1 : ℤ)

/-- `general_compute_degree` (`impl/General.ipp`, lines 36-43): weighted sum
of the exponent against the dimension table. -/
def general_compute_degree (dims : List ℤ) (e : Exp) : ℤ :=
  (List.zipWith (· * ·) e dims).sum

/-- Number of consecutive positive y-entries starting at position `n`
(the first loop of `find_exponent_recursive`). -/
def countConsecY (n : ℕ) (term : Exp) : ℕ :=
  ((List.range n).takeWhile fun k => 0 < term.getD (n + k) 0).length

/-- The backwards scan of `find_exponent_recursive` (lines 211-224): walk the
y-block from the last position down to `n`, recording the start and length of
the last run of positive entries. -/
def scanYGo (term : Exp) : List ℕ → Bool → ℕ → ℕ → ℕ × ℕ
  | [], _, last, cnt => (last, cnt)
  | i :: rest, found, last, cnt =>
    if term.getD i 0 = 0 ∧ found = true then (last, cnt)
    else if 0 < term.getD i 0 then scanYGo term rest true i (cnt + 1)
    else scanYGo term rest found last cnt

/-- The scan of the y-block from position `2n-1` down to `n`. -/
def scanY (n : ℕ) (term : Exp) : ℕ × ℕ :=
  scanYGo term ((List.range n).map fun k => 2 * n - 1 - k) false (2 * n) 0

/-- Add `x` to position `k` of a generator-coordinate exponent. -/
def bumpAtZ (v : Exp) (k : ℕ) (x : ℤ) : Exp := v.set k (v.getD k 0 + x)

/-- The pure-x staircase branch of `find_exponent_recursive` (lines 225-231). -/
def stairX (n : ℕ) (term exponent : Exp) : Exp :=
  bumpAtZ
    ((List.range' 1 (n - 1)).foldl
      (fun e i => bumpAtZ e (gdi n i 0) (term.getD (i - 1) 0 - term.getD i 0))
      exponent)
    (gdi n n 0) (term.getD (n - 1) 0)

/-- `Half_Idempotent_Basis::find_exponent_recursive`
(`impl/Half_Idempotent.ipp`, lines 194-238), with fuel standing in for the
recursion (every recursive call strictly decreases the y-weight of the
term). -/
def find_exponent_recursive (n : ℕ) (gens : List Poly) :
    ℕ → Exp → Exp → Exp
  | 0, _, exponent => exponent
  | fuel + 1, term, exponent =>
    if 0 < term.getD n 0 then
      let cnt := countConsecY n term
      let us : Exp := (List.range (2 * n)).map fun i => if n ≤ i ∧ i < n + cnt then 1 else 0
      let exponent2 := if 0 < cnt then (exponent.set (gdi n 0 cnt) 1) else exponent
      find_exponent_recursive n gens fuel (hiSub term us) exponent2
    else
      let sc := scanY n term
      if sc.1 = 2 * n then stairX n term exponent
      else if n < sc.1 then
        let ind := gdi n (sc.1 - n) sc.2
        let exponent2 := bumpAtZ exponent ind 1
        match highest_term (gens.getD ind []) with
        | none => exponent2
        | some g => find_exponent_recursive n gens fuel (hiSub term g.1.2) exponent2
      else exponent

/-- `Half_Idempotent_Basis::find_exponent` (lines 186-192). -/
def find_exponentHI (n : ℕ) (term : Exp) : Exp :=
  find_exponent_recursive n (chernGens n) (n + 1) term (List.replicate (numGens n) 0)

/-- The twisted-Chern basis `Half_Idempotent_Basis` on `x_1..x_n,y_1..y_n`
(constructor at `impl/Half_Idempotent.ipp`, lines 85-90). -/
def chernBasis (n : ℕ) : Basis :=
  { numVars := 2 * n
    degO := hiDeg
    expAdd := hiAdd
    gens := chernGens n
    degG := general_compute_degree (chernDims n)
    fexp := find_exponentHI n }

theorem zipWith_getD {f : ℤ → ℤ → ℤ} {x y : Exp} {i : ℕ}
    (hx : i < x.length) (hy : i < y.length) :
    (List.zipWith f x y).getD i 0 = f (x.getD i 0) (y.getD i 0) := by
  rw [List.getD_eq_getElem?_getD, List.getElem?_zipWith,
    List.getElem?_eq_getElem hx, List.getElem?_eq_getElem hy,
    List.getD_eq_getElem x 0 hx, List.getD_eq_getElem y 0 hy]
  rfl

theorem clampY_length (v : Exp) : (clampY v).length = v.length := by
  simp [clampY]

theorem clampY_getD {v : Exp} {i : ℕ} (h : i < v.length) :
    (clampY v).getD i 0 =
      if v.length / 2 ≤ i then (if 0 < v.getD i 0 then 1 else 0) else v.getD i 0 := by
  rw [clampY, List.getD_eq_getElem?_getD, List.getElem?_map, List.getElem?_range h]
  rfl

theorem hiSub_length {a b : Exp} (h : b.length = a.length) :
    (hiSub a b).length = a.length := by
  rw [hiSub, clampY_length, List.length_zipWith, h]
  exact min_self _

theorem hiAdd_length {a b : Exp} (h : b.length = a.length) :
    (hiAdd a b).length = a.length := by
  rw [hiAdd, clampY_length, List.length_zipWith, h]
  exact min_self _

theorem hiSub_getD {a b : Exp} {n i : ℕ} (ha : a.length = 2 * n)
    (hb : b.length = 2 * n) (hi : i < 2 * n) :
    (hiSub a b).getD i 0 =
      if n ≤ i then (if 0 < a.getD i 0 - b.getD i 0 then 1 else 0)
      else a.getD i 0 - b.getD i 0 := by
  have hlen : (List.zipWith (fun x y => x - y) a b).length = 2 * n := by
    rw [List.length_zipWith, ha, hb]; exact min_self _
  rw [hiSub, clampY_getD (by rw [hlen]; exact hi), hlen,
    zipWith_getD (by rw [ha]; exact hi) (by rw [hb]; exact hi)]
  have : 2 * n / 2 = n := by omega
  rw [this]

theorem hiAdd_getD {a b : Exp} {n i : ℕ} (ha : a.length = 2 * n)
    (hb : b.length = 2 * n) (hi : i < 2 * n) :
    (hiAdd a b).getD i 0 =
      if n ≤ i then (if 0 < a.getD i 0 + b.getD i 0 then 1 else 0)
      else a.getD i 0 + b.getD i 0 := by
  have hlen : (List.zipWith (fun x y => x + y) a b).length = 2 * n := by
    rw [List.length_zipWith, ha, hb]; exact min_self _
  rw [hiAdd, clampY_getD (by rw [hlen]; exact hi), hlen,
    zipWith_getD (by rw [ha]; exact hi) (by rw [hb]; exact hi)]
  have : 2 * n / 2 = n := by omega
  rw [this]

/-- Claim C10: for half-idempotent exponent vectors of length `2n` with
y-blocks in `{0,1}` and `b ≤ a` pointwise, subtraction followed by addition
of the same vector is the identity, and the intermediate difference as well
as the final result have all y-block entries in `{0,1}`. -/
theorem C10_hi_sub_add_roundtrip (n : ℕ) (a b : Exp)
    (ha : a.length = 2 * n) (hb : b.length = 2 * n)
    (hay : ∀ i, n ≤ i → i < 2 * n → a.getD i 0 = 0 ∨ a.getD i 0 = 1)
    (hby : ∀ i, n ≤ i → i < 2 * n → b.getD i 0 = 0 ∨ b.getD i 0 = 1)
    (hle : ∀ i, i < 2 * n → b.getD i 0 ≤ a.getD i 0) :
    hiAdd (hiSub a b) b = a ∧
    (∀ i, n ≤ i → i < 2 * n → (hiSub a b).getD i 0 = 0 ∨ (hiSub a b).getD i 0 = 1) ∧
    (∀ i, n ≤ i → i < 2 * n →
      (hiAdd (hiSub a b) b).getD i 0 = 0 ∨ (hiAdd (hiSub a b) b).getD i 0 = 1) := by
  have hsb : (hiSub a b).length = 2 * n := by
    rw [hiSub_length (by rw [ha, hb]), ha]
  have hsub_getD : ∀ i, i < 2 * n → (hiSub a b).getD i 0 =
      (if n ≤ i then (if 0 < a.getD i 0 - b.getD i 0 then 1 else 0)
       else a.getD i 0 - b.getD i 0) := fun i hi => hiSub_getD ha hb hi
  have hsuby : ∀ i, n ≤ i → i < 2 * n →
      (hiSub a b).getD i 0 = 0 ∨ (hiSub a b).getD i 0 = 1 := by
    intro i hni hi
    rw [hsub_getD i hi, if_pos hni]
    by_cases h : 0 < a.getD i 0 - b.getD i 0
    · right; rw [if_pos h]
    · left; rw [if_neg h]
  have hmain : hiAdd (hiSub a b) b = a := by
    refine List.ext_getElem ?_ ?_
    · rw [hiAdd_length (by rw [hsb, hb]), hsb, ha]
    · intro i h1 h2
      have hi : i < 2 * n := by
        rw [ha] at h2; exact h2
      have hg := hiAdd_getD hsb hb hi
      have hL : (hiAdd (hiSub a b) b)[i] = (hiAdd (hiSub a b) b).getD i 0 :=
        (List.getD_eq_getElem _ 0 h1).symm
      have hR : a[i] = a.getD i 0 := (List.getD_eq_getElem a 0 h2).symm
      rw [hL, hR, hg, hsub_getD i hi]
      by_cases hni : n ≤ i
      · rw [if_pos hni, if_pos hni]
        rcases hay i hni hi with h0 | h0 <;> rcases hby i hni hi with h1' | h1'
        · rw [h0, h1']; norm_num
        · exfalso
          have hc := hle i hi
          rw [h0, h1'] at hc
          norm_num at hc
        · rw [h0, h1']; norm_num
        · rw [h0, h1']; norm_num
      · rw [if_neg hni, if_neg hni]
        ring
  refine ⟨hmain, hsuby, ?_⟩
  intro i hni hi
  rw [hmain]
  exact hay i hni hi

/-- Witness instantiating claim C10 at `n = 1`, `a = [2,1]`, `b = [1,1]`. -/
theorem C10_hi_sub_add_roundtrip_witness :
    hiAdd (hiSub [2, 1] [1, 1]) [1, 1] = [2, 1] ∧
    (∀ i, 1 ≤ i → i < 2 → (hiSub [2, 1] [1, 1]).getD i 0 = 0 ∨
      (hiSub [2, 1] [1, 1]).getD i 0 = 1) ∧
    (∀ i, 1 ≤ i → i < 2 →
      (hiAdd (hiSub [2, 1] [1, 1]) [1, 1]).getD i 0 = 0 ∨
      (hiAdd (hiSub [2, 1] [1, 1]) [1, 1]).getD i 0 = 1) :=
  C10_hi_sub_add_roundtrip 1 [2, 1] [1, 1] (by decide) (by decide)
    (by decide) (by decide) (by decide)

theorem take_sum_getD : ∀ (m : ℕ) (v : List ℤ), m ≤ v.length →
    (v.take m).sum = ((List.range m).map fun i => v.getD i 0).sum := by
  intro m
  induction m with
  | zero => intro v _; simp
  | succ k ih =>
    intro v hm
    have hk : k < v.length := hm
    rw [List.sum_take_succ v k hk, List.range_succ, List.map_append, List.sum_append]
    simp [ih v (le_of_lt hk), List.getD_eq_getElem?_getD, List.getElem?_eq_getElem hk]

/-- Claim C8: for a half-idempotent exponent vector of length `2n` the
computed degree is the sum of the first `n` entries (the x-block); the
y-block contributes nothing.  This holds for
`Half_Idempotent_Variables::degree` for every such vector, and for the
relation policy's `halfidempotent::compute_degree` whenever `n ≥ 1` (on the
empty vector, `n = 0`, the latter reads `a[0]` out of bounds). -/
theorem C8_half_idempotent_degree (n : ℕ) (v : Exp) (hv : v.length = 2 * n) :
    hiDeg v = (v.take n).sum ∧
    (0 < n → compute_degree_hi v = some ((v.take n).sum)) := by
  have hdiv : v.length / 2 = n := by omega
  constructor
  · rw [hiDeg, hdiv]
  · intro hn
    cases v with
    | nil =>
      exfalso
      simp only [List.length_nil] at hv
      omega
    | cons x t =>
      simp only [compute_degree_hi]
      have h1 : (x :: t).length / 2 - 1 = n - 1 := by rw [hdiv]
      rw [h1, take_sum_getD n (x :: t) (by rw [hv]; omega)]
      have h2 : n = (n - 1) + 1 := by omega
      rw [h2, List.range_succ_eq_map, List.map_cons, List.sum_cons, List.map_map]
      have h3 : (x :: t).getD 0 0 = x := rfl
      rw [h3]
      have h4 : ((fun i => (x :: t).getD i 0) ∘ Nat.succ) =
          fun i => (x :: t).getD (i + 1) 0 := rfl
      rw [h4, Nat.add_sub_cancel]

/-- Witness instantiating claim C8 at `n = 2`, `v = [3, 4, 1, 0]`. -/
theorem C8_half_idempotent_degree_witness :
    hiDeg [3, 4, 1, 0] = ([3, 4, 1, 0].take 2).sum ∧
    (0 < 2 → compute_degree_hi [3, 4, 1, 0] = some (([3, 4, 1, 0].take 2).sum)) :=
  C8_half_idempotent_degree 2 [3, 4, 1, 0] (by decide)

/-- Claim C7: the elementary-symmetric `find_exponent` maps a weakly
decreasing exponent vector `[a_1,...,a_n]` to the staircase difference
vector `[a_1-a_2, ..., a_{n-1}-a_n, a_n]`. -/
theorem C7_staircase (term : Exp)
    (hdec : ∀ i, i + 1 < term.length → term.getD (i + 1) 0 ≤ term.getD i 0) :
    (find_exponentE term).length = term.length ∧
    (∀ i, i + 1 < term.length →
      (find_exponentE term).getD i 0 = term.getD i 0 - term.getD (i + 1) 0) ∧
    (0 < term.length →
      (find_exponentE term).getD (term.length - 1) 0 =
        term.getD (term.length - 1) 0) := by
  refine ⟨by simp [find_exponentE], ?_, ?_⟩
  · intro i hi
    rw [find_exponentE, List.getD_eq_getElem?_getD, List.getElem?_map,
      List.getElem?_range (by omega)]
    have hne : ¬ (i + 1 = term.length) := by omega
    simp [hne]
  · intro h0
    rw [find_exponentE, List.getD_eq_getElem?_getD, List.getElem?_map,
      List.getElem?_range (by omega)]
    have he : term.length - 1 + 1 = term.length := by omega
    simp [he]

/-- Witness instantiating claim C7 at the weakly decreasing vector
`[2, 1, 1]`. -/
theorem C7_staircase_witness :
    (find_exponentE [2, 1, 1]).getD 0 0 = 1 ∧
    (find_exponentE [2, 1, 1]).getD 2 0 = 1 := by
  have hd : ∀ i, i + 1 < ([2, 1, 1] : Exp).length →
      ([2, 1, 1] : Exp).getD (i + 1) 0 ≤ ([2, 1, 1] : Exp).getD i 0 := by
    intro i hi
    have h2 : i < 2 := by
      simp only [List.length_cons, List.length_nil] at hi
      omega
    interval_cases i <;> decide
  constructor
  · have h := (C7_staircase [2, 1, 1] hd).2.1 0 (by decide)
    rw [h]
    decide
  · have h := (C7_staircase [2, 1, 1] hd).2.2 (by decide)
    rw [show ([2, 1, 1] : Exp).length - 1 = 2 from rfl] at h
    rw [h]
    decide

theorem emplace_present : ∀ {p : Poly}, Sorted p → ∀ {k : Key} (c : ℚ),
    (∃ f ∈ p, f.1 = k) → emplace p k c = p := by
  intro p
  induction p with
  | nil =>
    intro _ k c hf
    rcases hf with ⟨f, hf, _⟩
    cases hf
  | cons e t ih =>
    intro h k c hf
    rcases hf with ⟨f, hf, hfk⟩
    simp only [emplace]
    rcases List.mem_cons.1 hf with hf | hf
    · have h2 : k = e.1 := by rw [← hfk, hf]
      have h1 : keyLt k e.1 = false := by rw [h2]; exact keyLt_irrefl e.1
      rw [h1]
      simp [h2]
    · have hlt : keyLt e.1 k = true := by
        rw [← hfk]; exact sorted_head h f hf
      have h1 : keyLt k e.1 = false := keyLt_asymm hlt
      have h2 : ¬ (k = e.1) := fun hh => keyLt_ne hlt hh.symm
      rw [h1]
      simp only [Bool.false_eq_true, if_false, h2]
      rw [ih (sorted_cons h) c ⟨f, hf, hfk⟩]

/-- Claim C3, counterexample: inserting a monomial whose exponent is already
present does not accumulate.  After `insert([1], 1)` followed by
`insert([1], -1)` the entry still has its old coefficient 1, although the
accumulated coefficient `1 + (-1)` is exactly 0 and the claim would demand
the entry to be erased. -/
theorem C3_counterexample :
    insertMono stdDeg (insertMono stdDeg [] [1] 1) [1] (-1) = [((1, [1]), 1)] ∧
    (1 : ℚ) + (-1) = 0 ∧ [((1, [1]), (1 : ℚ))] ≠ ([] : Poly) :=
  ⟨rfl, by norm_num, by simp⟩

/-- Claim C3, amended: the public `Polynomial::insert` emplaces — it adds a
new term when no term with that exponent is present and does nothing when
one is; it is the private `insert_add_erase` (used by `+=`, `-=` and `*`)
that accumulates into an existing coefficient and erases the entry when the
accumulated coefficient is exactly zero. -/
theorem C3_insert_semantics (δ : Exp → ℤ) (p : Poly) (e : Exp) (c : ℚ)
    (j : Key) (hs : Sorted p) :
    ((∀ f ∈ p, f.1 ≠ (δ e, e)) →
      lookup (insertMono δ p e c) j = lookup p j + (if j = (δ e, e) then c else 0)) ∧
    ((∃ f ∈ p, f.1 = (δ e, e)) → insertMono δ p e c = p) ∧
    (∀ k, lookup (insert_add_erase p k c) j = lookup p j + (if j = k then c else 0)) ∧
    (NoZero p → c ≠ 0 → NoZero (insert_add_erase p (δ e, e) c)) := by
  refine ⟨?_, ?_, ?_, ?_⟩
  · intro hfresh
    exact emplace_lookup_fresh hs c hfresh j
  · intro hpresent
    exact emplace_present hs c hpresent
  · intro k
    exact insert_add_erase_lookup hs k c j
  · intro hnz hc
    exact insert_add_erase_nozero hnz hc

/-- Witness instantiating claim C3 (amended) on the empty polynomial. -/
theorem C3_insert_semantics_witness :
    lookup (insertMono stdDeg [] [1] 1) (1, [1]) = 1 := by
  have h := (C3_insert_semantics stdDeg [] [1] 1 (1, [1]) sorted_nil).1
    (by intro f hf; cases hf)
  rw [h]
  simp [lookup, stdDeg]

/-- Claim C2, counterexample: applied to the zero polynomial (no monomials)
the forward decomposition does not return the zero polynomial over generator
coordinates — there is no zero check, and `highest_term()` of the empty
container is immediately dereferenced (undefined behaviour, modelled as
`none`). -/
theorem C2_counterexample :
    forward (eBasis 1) 5 [] = none ∧ forward (eBasis 1) 5 [] ≠ some [] := by
  constructor
  · rfl
  · intro h
    rw [show forward (eBasis 1) 5 [] = none from rfl] at h
    cases h

/-- Claim C2, amended: `PolynomialBasis::operator()` has no zero-polynomial
case.  On the zero polynomial it immediately queries `highest_term()` of an
empty container (undefined behaviour, modelled as `none`), for every basis
and every amount of fuel; it never returns the zero polynomial over
generator coordinates. -/
theorem C2_forward_zero (B : Basis) (fuel : ℕ) : forward B fuel [] = none := by
  cases fuel with
  | zero => rfl
  | succ k => rfl

/-- Key-level reflexive order derived from `keyLt`. -/
def keyLe (k l : Key) : Prop := k = l ∨ keyLt k l = true

theorem keyLe_trans {k l m : Key} (h1 : keyLe k l) (h2 : keyLe l m) : keyLe k m := by
  rcases h1 with h1 | h1
  · rw [h1]; exact h2
  · rcases h2 with h2 | h2
    · rw [← h2]; right; exact h1
    · right; exact keyLt_trans h1 h2

theorem scan_cond_iff (k l : Key) :
    (k.1 < l.1 ∨ (k.1 = l.1 ∧ lexLt k.2 l.2 = true)) ↔ keyLt k l = true := by
  constructor
  · intro h
    rcases h with h | ⟨h1, h2⟩
    · simp [keyLt, h]
    · simp [keyLt, h1, h2]
  · intro h
    simp only [keyLt] at h
    rcases lt_trichotomy k.1 l.1 with h1 | h1 | h1
    · left; exact h1
    · right
      rw [h1] at h
      simp only [lt_irrefl, if_false] at h
      exact ⟨h1, h⟩
    · rw [if_neg (by omega), if_pos h1] at h
      cases h

theorem scan_fold (t : List Entry) : ∀ (x : Entry),
    let r := t.foldl
      (fun maxit it =>
        if maxit.1.1 < it.1.1 ∨ (maxit.1.1 = it.1.1 ∧ lexLt maxit.1.2 it.1.2) then it
        else maxit)
      x
    (r = x ∨ r ∈ t) ∧ keyLe x.1 r.1 ∧ ∀ e ∈ t, keyLe e.1 r.1 := by
  induction t with
  | nil =>
    intro x
    exact ⟨Or.inl rfl, Or.inl rfl, fun e he => absurd he (List.not_mem_nil e)⟩
  | cons e t ih =>
    intro x
    simp only [List.foldl_cons]
    by_cases hc : x.1.1 < e.1.1 ∨ (x.1.1 = e.1.1 ∧ lexLt x.1.2 e.1.2 = true)
    · rw [if_pos hc]
      rcases ih e with ⟨hmem, hxe, hall⟩
      have hxle : keyLe x.1 e.1 := Or.inr ((scan_cond_iff x.1 e.1).1 hc)
      refine ⟨?_, keyLe_trans hxle hxe, ?_⟩
      · rcases hmem with h | h
        · right; rw [h]; exact List.mem_cons_self e t
        · right; exact List.mem_cons_of_mem _ h
      · intro f hf
        rcases List.mem_cons.1 hf with hf | hf
        · rw [hf]; exact hxe
        · exact hall f hf
    · rw [if_neg hc]
      rcases ih x with ⟨hmem, hxr, hall⟩
      have hele : keyLe e.1 x.1 := by
        rcases keyLt_trichotomy e.1 x.1 with h1 | h1 | h1
        · exact Or.inr h1
        · exact Or.inl h1
        · exact absurd ((scan_cond_iff x.1 e.1).2 h1) hc
      refine ⟨?_, hxr, ?_⟩
      · rcases hmem with h | h
        · left; exact h
        · right; exact List.mem_cons_of_mem _ h
      · intro f hf
        rcases List.mem_cons.1 hf with hf | hf
        · rw [hf]; exact keyLe_trans hele hxr
        · exact hall f hf

/-- Claim C9: for every non-empty polynomial, `highest_term()` returns the
term maximal in the degree-then-lexicographic order, and the ordered
implementation (last tree element) and the unordered implementation (linear
scan over the same term set in any iteration order) return the same
term. -/
theorem C9_highest_term (p : Poly) (l : List Entry) (hs : Sorted p)
    (hne : p ≠ []) (hperm : l.Perm p) :
    ∃ m, highest_term p = some m ∧ highest_term_unordered l = some m ∧
      m ∈ p ∧ ∀ e ∈ p, e ≠ m → keyLt e.1 m.1 = true := by
  rcases nonempty_getLast hne with ⟨m, hm⟩
  have hmax := getLast?_max hs hm
  have hmem : m ∈ p := getLast?_mem hm
  cases l with
  | nil =>
    exfalso
    have := hperm.symm.length_eq
    simp only [List.length_nil] at this
    exact hne (List.eq_nil_of_length_eq_zero this)
  | cons x t =>
    rcases scan_fold t x with ⟨hrmem, hxr, hall⟩
    set r := t.foldl
      (fun maxit it =>
        if maxit.1.1 < it.1.1 ∨ (maxit.1.1 = it.1.1 ∧ lexLt maxit.1.2 it.1.2) then it
        else maxit)
      x with hr
    have hrl : r ∈ x :: t := by
      rcases hrmem with h | h
      · rw [h]; exact List.mem_cons_self x t
      · exact List.mem_cons_of_mem _ h
    have hrp : r ∈ p := hperm.mem_iff.1 hrl
    have hml : m ∈ x :: t := hperm.mem_iff.2 hmem
    have hmler : keyLe m.1 r.1 := by
      rcases List.mem_cons.1 hml with h | h
      · rw [← h] at hxr; exact hxr
      · exact hall m h
    have hrm : r = m := by
      rcases hmax r hrp with h | h
      · exact h
      · rcases hmler with h2 | h2
        · exact mem_unique_key hs r hrp m hmem (h2.symm)
        · exact absurd (keyLt_trans h h2) (by rw [keyLt_irrefl]; exact fun hh => by cases hh)
    refine ⟨m, hm, ?_, hmem, ?_⟩
    · rw [highest_term_unordered, ← hr, hrm]
    · intro e he hne2
      rcases hmax e he with h | h
      · exact absurd h hne2
      · exact h

/-- Witness instantiating claim C9 on a two-term polynomial and a reversed
iteration order. -/
theorem C9_highest_term_witness :
    ∃ m, highest_term [((1, [0, 1]), (1 : ℚ)), ((1, [1, 0]), 2)] = some m ∧
      highest_term_unordered [((1, [1, 0]), 2), ((1, [0, 1]), (1 : ℚ))] = some m ∧
      m ∈ [((1, [0, 1]), (1 : ℚ)), ((1, [1, 0]), 2)] ∧
      ∀ e ∈ [((1, [0, 1]), (1 : ℚ)), ((1, [1, 0]), 2)], e ≠ m →
        keyLt e.1 m.1 = true := by
  refine C9_highest_term _ _ ?_ (by simp) ?_
  · refine List.pairwise_cons.2 ⟨?_, List.pairwise_singleton _ _⟩
    intro f hf
    rcases List.mem_cons.1 hf with hf | hf
    · rw [hf]; rfl
    · cases hf
  · exact List.Perm.swap _ _ []

/-- Polynomials reachable from single nonzero monomials, the empty
polynomial, and the operations `+=`, `-=` and `*` (with any exponent
addition policy and degree function). -/
inductive Reachable (expAdd : Exp → Exp → Exp) (δ : Exp → ℤ) : Poly → Prop
  | zero : Reachable expAdd δ []
  | mono (e : Exp) (c : ℚ) (hc : c ≠ 0) : Reachable expAdd δ (insertMono δ [] e c)
  | add {p q : Poly} : Reachable expAdd δ p → Reachable expAdd δ q →
      Reachable expAdd δ (addPoly p q)
  | sub {p q : Poly} : Reachable expAdd δ p → Reachable expAdd δ q →
      Reachable expAdd δ (subPoly p q)
  | mul {p q : Poly} : Reachable expAdd δ p → Reachable expAdd δ q →
      Reachable expAdd δ (mulPoly expAdd p q)

/-- Claim C5: every polynomial reachable by construction from monomials with
nonzero coefficients and the operations `+=`, `-=` and `*` stores no entry
with coefficient 0 — terms whose coefficients cancel during accumulation are
erased immediately. -/
theorem C5_no_zero_coefficients (expAdd : Exp → Exp → Exp) (δ : Exp → ℤ)
    (p : Poly) (h : Reachable expAdd δ p) : NoZero p := by
  induction h with
  | zero => exact fun e he => absurd he (List.not_mem_nil e)
  | mono e c hc =>
    intro g hg
    simp only [insertMono, emplace, List.mem_singleton] at hg
    rw [hg]
    exact hc
  | add _ _ ihp ihq => exact addPoly_nozero ihp ihq
  | sub _ _ ihp ihq => exact subPoly_nozero ihp ihq
  | mul _ _ ihp ihq => exact mulPoly_nozero expAdd ihp ihq

/-- Witness instantiating claim C5 on a difference where the accumulated
coefficient cancels to zero. -/
theorem C5_no_zero_coefficients_witness :
    NoZero (subPoly (insertMono stdDeg [] [1] 2) (insertMono stdDeg [] [1] 2)) :=
  C5_no_zero_coefficients stdAdd stdDeg _
    (Reachable.sub (Reachable.mono [1] 2 (by norm_num)) (Reachable.mono [1] 2 (by norm_num)))

theorem bumpAt_length (v : List ℕ) (p : ℕ) : (bumpAt v p).length = v.length := by
  rw [bumpAt, List.length_set]

theorem getD_replicate_zero (m k : ℕ) : (List.replicate m (0 : ℕ)).getD k 0 = 0 := by
  rw [List.getD_eq_getElem?_getD]
  exact List.getElem?_getD_replicate_default_eq 0 m k

theorem bumpAt_getD {v : List ℕ} {p : ℕ} (hp : p < v.length) (k : ℕ) :
    (bumpAt v p).getD k 0 = v.getD k 0 + (if p = k then 1 else 0) := by
  rw [bumpAt, List.getD_eq_getElem?_getD, List.getElem?_set]
  by_cases hpk : p = k
  · rw [if_pos hpk, if_pos hp]
    rw [if_pos hpk, ← hpk]
    simp
  · rw [if_neg hpk, if_neg hpk, add_zero, List.getD_eq_getElem?_getD]

theorem getD_set_ne {v : List ℕ} {p q : ℕ} (h : p ≠ q) (a : ℕ) :
    (v.set p a).getD q 0 = v.getD q 0 := by
  rw [List.getD_eq_getElem?_getD, List.getElem?_set, if_neg h,
    List.getD_eq_getElem?_getD]

theorem bumpAt_comm (v : List ℕ) (p q : ℕ) :
    bumpAt (bumpAt v p) q = bumpAt (bumpAt v q) p := by
  by_cases hpq : p = q
  · rw [hpq]
  · rw [bumpAt, bumpAt, bumpAt, bumpAt]
    rw [getD_set_ne hpq, getD_set_ne (fun hh => hpq hh.symm)]
    exact List.set_comm _ _ _ hpq

theorem relComb_getD {n s i t j : ℕ} (h1 : gdi n s i < numGens n)
    (h2 : gdi n t j < numGens n) (k : ℕ) :
    (relComb n s i t j).getD k 0 =
      (if gdi n s i = k then 1 else 0) + (if gdi n t j = k then 1 else 0) := by
  have hl1 : (List.replicate (numGens n) (0 : ℕ)).length = numGens n :=
    List.length_replicate _ _
  rw [relComb, bumpAt_getD (by rw [bumpAt_length, hl1]; exact h2) k,
    bumpAt_getD (by rw [hl1]; exact h1) k, getD_replicate_zero]
  omega

theorem countP_eq_one_of_unique {α : Type} {p : α → Bool} {l : List α}
    (hnd : l.Nodup) {x : α} (hx : x ∈ l) (hpx : p x = true)
    (huniq : ∀ y ∈ l, p y = true → y = x) : List.countP p l = 1 := by
  rw [List.countP_eq_length_filter]
  have hnd2 : (l.filter p).Nodup := (List.filter_sublist l).nodup hnd
  have hxf : x ∈ l.filter p := List.mem_filter.2 ⟨hx, hpx⟩
  have hall : ∀ y ∈ l.filter p, y = x := fun y hy =>
    huniq y (List.mem_filter.1 hy).1 (List.mem_filter.1 hy).2
  cases hf : l.filter p with
  | nil => rw [hf] at hxf; cases hxf
  | cons a u =>
    rw [hf] at hall hnd2
    cases u with
    | nil => simp
    | cons b w =>
      exfalso
      have ha : a = x := hall a (List.mem_cons_self a _)
      have hb : b = x := hall b (List.mem_cons_of_mem _ (List.mem_cons_self b _))
      have := (List.pairwise_cons.1 hnd2).1 b
        (List.mem_cons_self b _)
      exact this (by rw [ha, hb])

/-- The unfiltered generator-pair enumeration (including the skipped
`(0,0)`). -/
def genPairsU (n : ℕ) : List (ℕ × ℕ) :=
  (List.range (n + 1)).flatMap fun s => (List.range (n + 1 - s)).map fun i => (s, i)

theorem genPairsU_nodup (n : ℕ) : (genPairsU n).Nodup := by
  rw [genPairsU, List.nodup_flatMap]
  constructor
  · intro s _
    refine List.Nodup.map ?_ (List.nodup_range _)
    intro a b hab
    injection hab
  · refine List.Pairwise.imp ?_ (List.nodup_range (n + 1))
    intro a b hab x hxa hxb
    rcases List.mem_map.1 hxa with ⟨i1, _, hx1⟩
    rcases List.mem_map.1 hxb with ⟨i2, _, hx2⟩
    rw [← hx1] at hx2
    injection hx2 with h3 _
    exact hab h3.symm

theorem genPairsU_mem {n s i : ℕ} :
    (s, i) ∈ genPairsU n ↔ s ≤ n ∧ i ≤ n - s := by
  rw [genPairsU, List.mem_flatMap]
  constructor
  · rintro ⟨s2, hs2, hmem⟩
    rcases List.mem_map.1 hmem with ⟨i2, hi2, heq⟩
    injection heq with ha hb
    rw [← ha, ← hb]
    have h1 := List.mem_range.1 hs2
    have h2 := List.mem_range.1 hi2
    omega
  · rintro ⟨h1, h2⟩
    refine ⟨s, List.mem_range.2 (by omega), ?_⟩
    exact List.mem_map.2 ⟨i, List.mem_range.2 (by omega), rfl⟩

theorem genPairs_eq_filter (n : ℕ) :
    genPairs n = (genPairsU n).filter fun p => p ≠ (0, 0) := rfl

theorem genPairs_nodup (n : ℕ) : (genPairs n).Nodup := by
  rw [genPairs_eq_filter]
  exact List.Nodup.filter _ (genPairsU_nodup n)

theorem genPairs_mem {n s i : ℕ} :
    (s, i) ∈ genPairs n ↔ s ≤ n ∧ i ≤ n - s ∧ ¬(s = 0 ∧ i = 0) := by
  rw [genPairs_eq_filter, List.mem_filter, genPairsU_mem]
  constructor
  · rintro ⟨⟨h1, h2⟩, h3⟩
    refine ⟨h1, h2, ?_⟩
    rintro ⟨rfl, rfl⟩
    simp at h3
  · rintro ⟨h1, h2, h3⟩
    refine ⟨⟨h1, h2⟩, ?_⟩
    simp only [ne_eq, decide_not, Bool.not_eq_true', decide_eq_false_iff_not]
    intro hh
    rw [Prod.mk.injEq] at hh
    exact h3 hh

theorem gdi_lt {n s i : ℕ} (h : (s, i) ∈ genPairs n) :
    gdi n s i < (genPairs n).length := by
  rw [gdi]
  exact List.indexOf_lt_length.2 h

theorem gdi_inj {n s i t j : ℕ} (h1 : (s, i) ∈ genPairs n)
    (h2 : (t, j) ∈ genPairs n) (he : gdi n s i = gdi n t j) : s = t ∧ i = j := by
  rw [gdi, gdi] at he
  have h3 := (List.indexOf_inj h1 h2).1 he
  rw [Prod.mk.injEq] at h3
  exact h3

theorem sum_map_add_one (l : List ℕ) (f : ℕ → ℕ) :
    (l.map fun s => f s + 1).sum = (l.map f).sum + l.length := by
  induction l with
  | nil => simp
  | cons x t ih =>
    simp only [List.map_cons, List.sum_cons, List.length_cons, ih]
    omega

theorem triangle_sum : ∀ m : ℕ,
    2 * ((List.range m).map fun s => m - s).sum = m * (m + 1) := by
  intro m
  induction m with
  | zero => simp
  | succ k ih =>
    rw [List.range_succ, List.map_append, List.sum_append]
    have h1 : (List.range k).map (fun s => k + 1 - s) =
        (List.range k).map (fun s => (k - s) + 1) := by
      refine List.map_congr_left ?_
      intro a ha
      have : a < k := List.mem_range.1 ha
      omega
    rw [h1, sum_map_add_one, List.length_range]
    have hB : (k + 1) * (k + 1 + 1) = k * (k + 1) + 2 * (k + 1) := by ring
    have heq : (List.map (HSub.hSub k) (List.range k)).sum =
        ((List.range k).map fun s => k - s).sum := rfl
    simp only [List.map_cons, List.sum_cons, List.map_nil, List.sum_nil]
    omega

theorem genPairs_length (n : ℕ) : (genPairs n).length = numGens n := by
  have hUlen : (genPairsU n).length =
      ((List.range (n + 1)).map fun s => n + 1 - s).sum := by
    rw [genPairsU, List.length_flatMap]
    congr 1
    refine List.map_congr_left ?_
    intro s _
    simp [Function.comp]
  have hmem : ((0 : ℕ), (0 : ℕ)) ∈ genPairsU n := genPairsU_mem.2 (by omega)
  have h0 : List.countP (fun a => decide (a = ((0 : ℕ), (0 : ℕ)))) (genPairsU n) = 1 := by
    refine countP_eq_one_of_unique (genPairsU_nodup n) hmem (by simp) ?_
    intro y _ hy
    simpa using hy
  have hsplit := List.length_eq_countP_add_countP
    (fun p => decide (p ≠ ((0 : ℕ), (0 : ℕ)))) (genPairsU n)
  have hflen : (genPairs n).length =
      List.countP (fun p => decide (p ≠ ((0 : ℕ), (0 : ℕ)))) (genPairsU n) := by
    rw [genPairs_eq_filter, List.countP_eq_length_filter]
  have hiff : ∀ x ∈ genPairsU n,
      (fun a => decide ¬(decide (a ≠ ((0 : ℕ), (0 : ℕ))) = true)) x = true ↔
      (fun a => decide (a = ((0 : ℕ), (0 : ℕ)))) x = true := by
    intro x _
    simp
  have hneg := List.countP_congr hiff
  have hlen2 : (genPairsU n).length = (genPairs n).length + 1 := by
    rw [hsplit, ← hflen, hneg, h0]
  have htri := triangle_sum (n + 1)
  rw [← hUlen] at htri
  have hq : (n + 1) * (n + 1 + 1) = n * n + 3 * n + 2 := by ring
  have hr : n * (n + 1) = n * n + n := by ring
  have hev : (n * n + n) % 2 = 0 := by
    rcases Nat.even_mul_succ_self n with ⟨c, hc⟩
    omega
  rw [numGens]
  omega
/-- The skip condition of `set_relations`, as a Boolean predicate on
loop-variable quadruples `(s, t, i, j)` (negated: `true` means kept). -/
def keepQ (q : ℕ × ℕ × ℕ × ℕ) : Bool :=
  !(decide (q.2.1 > q.1 + q.2.2.1 ∨ (q.1 = q.2.1 ∧ q.2.2.2 < q.2.2.1) ∨
    (q.1 = 0 ∧ q.2.1 ≠ q.2.2.1)))

/-- The stored monomial of a loop-variable quadruple. -/
def relFn (n : ℕ) (q : ℕ × ℕ × ℕ × ℕ) : List ℕ := relComb n q.1 q.2.2.1 q.2.1 q.2.2.2

/-- All loop-variable quadruples `(s, t, i, j)` visited by `set_relations`. -/
def quads (n : ℕ) : List (ℕ × ℕ × ℕ × ℕ) :=
  (List.range n).flatMap fun s =>
    (List.range' s (n - s)).flatMap fun t =>
      (List.range' 1 (n - s)).flatMap fun i =>
        (List.range' 1 (n - t)).map fun j => (s, t, i, j)

theorem inner_eq (n s t i : ℕ) (l : List ℕ) :
    (l.filterMap fun j => if t > s + i ∨ (s = t ∧ j < i) ∨ (s = 0 ∧ t ≠ i) then none
      else some (relComb n s i t j)) =
    List.map (relFn n) (List.filter keepQ (l.map fun j => (s, t, i, j))) := by
  induction l with
  | nil => rfl
  | cons a u ih =>
    by_cases h : t > s + i ∨ (s = t ∧ a < i) ∨ (s = 0 ∧ t ≠ i)
    · have hk : keepQ (s, t, i, a) = false := by simp [keepQ, h]
      simp [List.filterMap_cons, List.filter_cons, h, hk, ih]
    · have hk : keepQ (s, t, i, a) = true := by simp [keepQ, h]
      simp [List.filterMap_cons, List.filter_cons, h, hk, ih, relFn]

theorem set_relations_eq (n : ℕ) :
    set_relations n = ((quads n).filter keepQ).map (relFn n) := by
  rw [set_relations, quads]
  simp only [List.filter_flatMap, List.map_flatMap]
  refine congrArg (List.flatMap (List.range n)) (funext fun s => ?_)
  refine congrArg (List.flatMap (List.range' s (n - s))) (funext fun t => ?_)
  refine congrArg (List.flatMap (List.range' 1 (n - s))) (funext fun i => ?_)
  exact inner_eq n s t i _

theorem quads_mem {n s t i j : ℕ} :
    (s, t, i, j) ∈ quads n ↔
      s ≤ t ∧ t < n ∧ 1 ≤ i ∧ i ≤ n - s ∧ 1 ≤ j ∧ j ≤ n - t := by
  rw [quads]
  simp only [List.mem_flatMap, List.mem_map, List.mem_range, List.mem_range'_1]
  constructor
  · rintro ⟨s2, hs2, t2, ht2, i2, hi2, j2, hj2, heq⟩
    simp only [Prod.mk.injEq] at heq
    obtain ⟨rfl, rfl, rfl, rfl⟩ := heq
    refine ⟨?_, ?_, ?_, ?_, ?_, ?_⟩ <;> omega
  · rintro ⟨h1, h2, h3, h4, h5, h6⟩
    exact ⟨s, by omega, t, ⟨by omega, by omega⟩, i, ⟨by omega, by omega⟩,
      j, ⟨by omega, by omega⟩, rfl⟩

theorem quads_valid {n s t i j : ℕ} (hq : (s, t, i, j) ∈ quads n) :
    (s, i) ∈ genPairs n ∧ (t, j) ∈ genPairs n := by
  rcases quads_mem.1 hq with ⟨h1, h2, h3, h4, h5, h6⟩
  constructor
  · exact genPairs_mem.2 ⟨by omega, by omega, by omega⟩
  · exact genPairs_mem.2 ⟨by omega, by omega, by omega⟩

theorem nodup_flatMap_tag {α β : Type} (g : β → α) {l : List α} {f : α → List β}
    (hl : l.Nodup) (hf : ∀ a ∈ l, (f a).Nodup)
    (htag : ∀ a ∈ l, ∀ x ∈ f a, g x = a) : (l.flatMap f).Nodup := by
  rw [List.nodup_flatMap]
  refine ⟨hf, ?_⟩
  refine List.Pairwise.imp_of_mem ?_ hl
  intro a b ha hb hab x hxa hxb
  exact hab (((htag a ha x hxa).symm).trans (htag b hb x hxb))

theorem quads_nodup (n : ℕ) : (quads n).Nodup := by
  rw [quads]
  refine nodup_flatMap_tag (fun q => q.1) (List.nodup_range n) ?_ ?_
  · intro s _
    refine nodup_flatMap_tag (fun q => q.2.1) (List.nodup_range' s (n - s)) ?_ ?_
    · intro t _
      refine nodup_flatMap_tag (fun q => q.2.2.1) (List.nodup_range' 1 (n - s)) ?_ ?_
      · intro i _
        refine List.Nodup.map ?_ (List.nodup_range' 1 (n - t))
        intro a b hab
        simp only [Prod.mk.injEq] at hab
        exact hab.2.2.2
      · intro i _ x hx
        rcases List.mem_map.1 hx with ⟨j, _, rfl⟩
        rfl
    · intro t _ x hx
      rcases List.mem_flatMap.1 hx with ⟨i, _, hx2⟩
      rcases List.mem_map.1 hx2 with ⟨j, _, rfl⟩
      rfl
  · intro s _ x hx
    rcases List.mem_flatMap.1 hx with ⟨t, _, hx2⟩
    rcases List.mem_flatMap.1 hx2 with ⟨i, _, hx3⟩
    rcases List.mem_map.1 hx3 with ⟨j, _, rfl⟩
    rfl

theorem ite_pair_eq {a b c d : ℕ}
    (h : ∀ k : ℕ, (if a = k then (1 : ℕ) else 0) + (if b = k then 1 else 0) =
      (if c = k then (1 : ℕ) else 0) + (if d = k then 1 else 0)) :
    (a = c ∧ b = d) ∨ (a = d ∧ b = c) := by
  have ha := h a
  have hb := h b
  rw [if_pos rfl] at ha
  rw [if_pos rfl] at hb
  by_cases hba : b = a
  · rw [if_pos hba] at ha
    by_cases hca : c = a
    · rw [if_pos hca] at ha
      by_cases hda : d = a
      · exact Or.inl ⟨hca.symm, hba.trans hda.symm⟩
      · rw [if_neg hda] at ha
        omega
    · rw [if_neg hca] at ha
      by_cases hda : d = a
      · rw [if_pos hda] at ha
        omega
      · rw [if_neg hda] at ha
        omega
  · rw [if_neg (fun hh : a = b => hba hh.symm)] at hb
    by_cases hca : c = a
    · rw [if_pos hca] at ha
      rw [if_neg hba] at ha
      have hda : ¬d = a := by
        by_cases hda : d = a
        · rw [if_pos hda] at ha
          omega
        · exact hda
      by_cases hdb : d = b
      · exact Or.inl ⟨hca.symm, hdb.symm⟩
      · rw [if_neg hdb] at hb
        by_cases hcb : c = b
        · exact absurd (hcb.symm.trans hca) hba
        · rw [if_neg hcb] at hb
          omega
    · rw [if_neg hca] at ha
      rw [if_neg hba] at ha
      by_cases hda : d = a
      · have hdb : ¬d = b := fun hh => hba (hh.symm.trans hda)
        rw [if_neg hdb] at hb
        by_cases hcb : c = b
        · exact Or.inr ⟨hda.symm, hcb.symm⟩
        · rw [if_neg hcb] at hb
          omega
      · rw [if_neg hda] at ha
        omega

theorem relComb_inj {n s i t j s2 i2 t2 j2 : ℕ}
    (h1 : (s, i) ∈ genPairs n) (h2 : (t, j) ∈ genPairs n)
    (h3 : (s2, i2) ∈ genPairs n) (h4 : (t2, j2) ∈ genPairs n)
    (heq : relComb n s i t j = relComb n s2 i2 t2 j2) :
    (s = s2 ∧ i = i2 ∧ t = t2 ∧ j = j2) ∨ (s = t2 ∧ i = j2 ∧ t = s2 ∧ j = i2) := by
  have g1 : gdi n s i < numGens n := by rw [← genPairs_length]; exact gdi_lt h1
  have g2 : gdi n t j < numGens n := by rw [← genPairs_length]; exact gdi_lt h2
  have g3 : gdi n s2 i2 < numGens n := by rw [← genPairs_length]; exact gdi_lt h3
  have g4 : gdi n t2 j2 < numGens n := by rw [← genPairs_length]; exact gdi_lt h4
  have hk : ∀ k : ℕ,
      (if gdi n s i = k then (1 : ℕ) else 0) + (if gdi n t j = k then 1 else 0) =
      (if gdi n s2 i2 = k then (1 : ℕ) else 0) + (if gdi n t2 j2 = k then 1 else 0) :=
    fun k => by rw [← relComb_getD g1 g2 k, ← relComb_getD g3 g4 k, heq]
  rcases ite_pair_eq hk with ⟨e1, e2⟩ | ⟨e1, e2⟩
  · obtain ⟨ea, eb⟩ := gdi_inj h1 h3 e1
    obtain ⟨ec, ed⟩ := gdi_inj h2 h4 e2
    exact Or.inl ⟨ea, eb, ec, ed⟩
  · obtain ⟨ea, eb⟩ := gdi_inj h1 h4 e1
    obtain ⟨ec, ed⟩ := gdi_inj h2 h3 e2
    exact Or.inr ⟨ea, eb, ec, ed⟩

theorem keepQ_iff {s t i j : ℕ} :
    keepQ (s, t, i, j) = true ↔
      ¬(t > s + i ∨ (s = t ∧ j < i) ∨ (s = 0 ∧ t ≠ i)) := by
  constructor
  · intro h hP
    rw [keepQ] at h
    simp only [Bool.not_eq_true', decide_eq_false_iff_not] at h
    exact h hP
  · intro h
    rw [keepQ]
    simp only [Bool.not_eq_true', decide_eq_false_iff_not]
    exact h

theorem set_relations_nodup (n : ℕ) : (set_relations n).Nodup := by
  rw [set_relations_eq]
  refine List.Nodup.map_on ?_ (List.Nodup.filter _ (quads_nodup n))
  rintro ⟨s, t, i, j⟩ hq ⟨s2, t2, i2, j2⟩ hq2 heq
  have hm := (List.mem_filter.1 hq).1
  have hk := (List.mem_filter.1 hq).2
  have hm2 := (List.mem_filter.1 hq2).1
  have hk2 := (List.mem_filter.1 hq2).2
  obtain ⟨hv1, hv2⟩ := quads_valid hm
  obtain ⟨hv3, hv4⟩ := quads_valid hm2
  have heq2 : relComb n s i t j = relComb n s2 i2 t2 j2 := heq
  rcases quads_mem.1 hm with ⟨hst, _, _, _, _, _⟩
  rcases quads_mem.1 hm2 with ⟨hst2, _, _, _, _, _⟩
  have hkk := keepQ_iff.1 hk
  have hkk2 := keepQ_iff.1 hk2
  rcases relComb_inj hv1 hv2 hv3 hv4 heq2 with ⟨e1, e2, e3, e4⟩ | ⟨e1, e2, e3, e4⟩
  · rw [e1, e2, e3, e4]
  · have hs : s = s2 := by omega
    have ht : t = t2 := by omega
    have hi : i = i2 := by omega
    have hj : j = j2 := by omega
    rw [hs, ht, hi, hj]

theorem relComb_mem {n s t i j : ℕ} (hq : (s, t, i, j) ∈ quads n)
    (hk : keepQ (s, t, i, j) = true) : relComb n s i t j ∈ set_relations n := by
  rw [set_relations_eq]
  exact List.mem_map.2 ⟨(s, t, i, j), List.mem_filter.2 ⟨hq, hk⟩, rfl⟩

theorem count_mem_one {n : ℕ} {m : List ℕ} (hm : m ∈ set_relations n) :
    List.countP (fun x => decide (x = m)) (set_relations n) = 1 := by
  refine countP_eq_one_of_unique (set_relations_nodup n) hm (by simp) ?_
  intro y _ hy
  exact of_decide_eq_true hy

theorem count_notmem_zero {n : ℕ} {m : List ℕ} (hm : m ∉ set_relations n) :
    List.countP (fun x => decide (x = m)) (set_relations n) = 0 := by
  rw [List.countP_eq_zero]
  intro a ha hpa
  exact hm ((of_decide_eq_true hpa) ▸ ha)
/-- C6: `Half_Idempotent_Basis::set_relations` stores, as generator-index-space
monomials, exactly one relation for every `a_s * c_{s,i}`-type product (the
generator pair `(0,s)`, `(s,i)` with `s, i ≥ 1`, `s + i ≤ n`), exactly one
relation for every pairwise product `c_{s,i} * c_{t,j}` with
`1 ≤ s ≤ t ≤ s + i`, `i, j ≥ 1` and both generators in range (one stored
monomial per unordered pair, counting each monomial once), and no relation at
all for any pair with `t > s + i`. -/
theorem C6_relation_enumeration (n : ℕ) :
    (∀ s i, 1 ≤ s → 1 ≤ i → s + i ≤ n →
      List.countP (fun m => decide (m = relComb n 0 s s i)) (set_relations n) = 1) ∧
    (∀ s i t j, 1 ≤ s → s ≤ t → t ≤ s + i → 1 ≤ i → s + i ≤ n → 1 ≤ j → t + j ≤ n →
      List.countP (fun m => decide (m = relComb n s i t j)) (set_relations n) = 1) ∧
    (∀ s i t j, 1 ≤ s → 1 ≤ i → s + i ≤ n → 1 ≤ j → t + j ≤ n → s + i < t →
      List.countP (fun m => decide (m = relComb n s i t j)) (set_relations n) = 0) := by
  refine ⟨?_, ?_, ?_⟩
  · intro s i hs hi hsi
    refine count_mem_one (relComb_mem ?_ ?_)
    · exact quads_mem.2 ⟨by omega, by omega, by omega, by omega, by omega, by omega⟩
    · exact keepQ_iff.2 (by omega)
  · intro s i t j hs hst hts hi hsi hj htj
    by_cases hcase : s = t ∧ j < i
    · obtain ⟨rfl, hji⟩ := hcase
      have hswap : relComb n s i s j = relComb n s j s i := by
        rw [relComb, relComb, bumpAt_comm]
      rw [hswap]
      refine count_mem_one (relComb_mem ?_ ?_)
      · exact quads_mem.2 ⟨by omega, by omega, by omega, by omega, by omega, by omega⟩
      · exact keepQ_iff.2 (by omega)
    · refine count_mem_one (relComb_mem ?_ ?_)
      · exact quads_mem.2 ⟨by omega, by omega, by omega, by omega, by omega, by omega⟩
      · exact keepQ_iff.2 (by omega)
  · intro s i t j hs hi hsi hj htj hti
    refine count_notmem_zero ?_
    intro hmem
    rw [set_relations_eq] at hmem
    rcases List.mem_map.1 hmem with ⟨⟨s2, t2, i2, j2⟩, hq2, heq⟩
    have hm2 := (List.mem_filter.1 hq2).1
    have hk2 := (List.mem_filter.1 hq2).2
    obtain ⟨hv3, hv4⟩ := quads_valid hm2
    have hv1 : (s, i) ∈ genPairs n := genPairs_mem.2 ⟨by omega, by omega, by omega⟩
    have hv2 : (t, j) ∈ genPairs n := genPairs_mem.2 ⟨by omega, by omega, by omega⟩
    have heq2 : relComb n s2 i2 t2 j2 = relComb n s i t j := heq
    rcases quads_mem.1 hm2 with ⟨hst2, _, _, _, _, _⟩
    have hkk := keepQ_iff.1 hk2
    rcases relComb_inj hv3 hv4 hv1 hv2 heq2 with ⟨e1, e2, e3, e4⟩ | ⟨e1, e2, e3, e4⟩
    · omega
    · omega

/-- Witness for C6 at `n = 4`: the `a_1 c_{1,1}` relation and the
`c_{1,1}²` relation each appear once, and no relation pairs `c_{1,1}`
with `c_{3,1}` (there `t = 3 > s + i = 2`). -/
theorem C6_relation_enumeration_witness :
    List.countP (fun m => decide (m = relComb 4 0 1 1 1)) (set_relations 4) = 1 ∧
    List.countP (fun m => decide (m = relComb 4 1 1 1 1)) (set_relations 4) = 1 ∧
    List.countP (fun m => decide (m = relComb 4 1 1 3 1)) (set_relations 4) = 0 :=
  ⟨(C6_relation_enumeration 4).1 1 1 (by decide) (by decide) (by decide),
   (C6_relation_enumeration 4).2.1 1 1 1 1 (by decide) (by decide) (by decide)
     (by decide) (by decide) (by decide) (by decide),
   (C6_relation_enumeration 4).2.2 1 1 3 1 (by decide) (by decide) (by decide)
     (by decide) (by decide) (by decide)⟩
/-- Concrete evaluation: `e₁³` on two variables, the product polynomial the
elementary-symmetric decomposition builds for the leading term of
`x₁³ + x₂³`. -/
theorem eprod_cube : computeProduct (eBasis 2) [3, 0] =
    [((3,[0,3]),1),((3,[1,2]),3),((3,[2,1]),3),((3,[3,0]),1)] := by
  have hg1 : get_elementary_symmetric 2 1 = [((1,[0,1]),1),((1,[1,0]),1)] := rfl
  have hsq : mulPoly stdAdd [((1,[0,1]),1),((1,[1,0]),1)] [((1,[0,1]),1),((1,[1,0]),1)] =
      [((2,[0,2]),1),((2,[1,1]),2),((2,[2,0]),1)] := by
    norm_num [mulPoly, insert_add_erase, keyAdd, stdAdd, keyLt, lexLt]
  have hcube : mulPoly stdAdd [((2,[0,2]),1),((2,[1,1]),2),((2,[2,0]),1)]
      [((1,[0,1]),1),((1,[1,0]),1)] =
      [((3,[0,3]),1),((3,[1,2]),3),((3,[2,1]),3),((3,[3,0]),1)] := by
    norm_num [mulPoly, insert_add_erase, keyAdd, stdAdd, keyLt, lexLt]
  have hr2 : Int.toNat 2 = 2 := rfl
  have hrange2 : List.range 2 = [0, 1] := rfl
  have hrep : List.replicate 2 (0 : ℤ) = [0, 0] := rfl
  have hpow : powPoly stdAdd stdDeg 2 [((1,[0,1]),1),((1,[1,0]),1)] 3 =
      [((3,[0,3]),1),((3,[1,2]),3),((3,[2,1]),3),((3,[3,0]),1)] := by
    rw [powPoly]
    norm_num [hr2, hrange2, hsq, hcube]
  have hconstmul : mulPoly stdAdd (constPoly stdDeg 2 1)
      [((3,[0,3]),1),((3,[1,2]),3),((3,[2,1]),3),((3,[3,0]),1)] =
      [((3,[0,3]),1),((3,[1,2]),3),((3,[2,1]),3),((3,[3,0]),1)] := by
    norm_num [mulPoly, constPoly, insertMono, emplace, insert_add_erase, lookup,
      keyAdd, stdAdd, stdDeg, keyLt, lexLt, hrep]
  have hglen : List.range (eBasis 2).gens.length = [0, 1] := rfl
  rw [computeProduct, hglen]
  norm_num [eBasis, hg1, hpow, hconstmul]

/-- Concrete evaluation: `e₁·e₂` on two variables. -/
theorem eprod_e1e2 : computeProduct (eBasis 2) [1, 1] = [((3,[1,2]),1),((3,[2,1]),1)] := by
  have hg1 : get_elementary_symmetric 2 1 = [((1,[0,1]),1),((1,[1,0]),1)] := rfl
  have hg2 : get_elementary_symmetric 2 2 = [((2,[1,1]),1)] := rfl
  have hrep : List.replicate 2 (0 : ℤ) = [0, 0] := rfl
  have hconstmul : mulPoly stdAdd (constPoly stdDeg 2 1) [((1,[0,1]),1),((1,[1,0]),1)] =
      [((1,[0,1]),1),((1,[1,0]),1)] := by
    norm_num [mulPoly, constPoly, insertMono, emplace, insert_add_erase, lookup,
      keyAdd, stdAdd, stdDeg, keyLt, lexLt, hrep]
  have hmul12 : mulPoly stdAdd [((1,[0,1]),1),((1,[1,0]),1)] [((2,[1,1]),1)] =
      [((3,[1,2]),1),((3,[2,1]),1)] := by
    norm_num [mulPoly, insert_add_erase, keyAdd, stdAdd, keyLt, lexLt]
  have hglen : List.range (eBasis 2).gens.length = [0, 1] := rfl
  rw [computeProduct, hglen]
  norm_num [eBasis, hg1, hg2, powPoly, hconstmul, hmul12]

/-- Scaling `e₁³` by the quotient coefficient `1/1` leaves it unchanged. -/
theorem esmul_one : smulPoly ((1:ℚ)/1)
    [((3,[0,3]),(1:ℚ)),((3,[1,2]),3),((3,[2,1]),3),((3,[3,0]),1)] =
    [((3,[0,3]),(1:ℚ)),((3,[1,2]),3),((3,[2,1]),3),((3,[3,0]),1)] := by
  norm_num [smulPoly]

/-- Subtracting `e₁³` from `x₁³ + x₂³`. -/
theorem esub_cubes : subPoly [((3,[0,3]),(1:ℚ)),((3,[3,0]),1)]
    [((3,[0,3]),(1:ℚ)),((3,[1,2]),3),((3,[2,1]),3),((3,[3,0]),1)] =
    [((3,[1,2]),-3),((3,[2,1]),-3)] := by
  norm_num [subPoly, insert_add_erase, keyLt, lexLt]

/-- Full run of the instrumented forward decomposition on `x₁³ + x₂³` over
the two-variable elementary-symmetric basis: it terminates in two iterations
with decomposition `e₁³ - 3·e₁e₂` and visits the highest-term keys
`(3, x₁³)` and `(3, x₁²x₂)`. -/
theorem forwardTrace_x13_x23 : forwardTrace (eBasis 2) 4 [((3,[0,3]),1),((3,[3,0]),1)] =
    some ([(3,[3,0]), (3,[2,1])], [((3,[1,1]),-3),((3,[3,0]),1)]) := by
  have hh1 : highest_term [((3,[0,3]),(1:ℚ)),((3,[3,0]),1)] = some ((3,[3,0]),1) := rfl
  have hfe1 : find_exponentE [3, 0] = [3, 0] := rfl
  have hhp1 : highest_term [((3,[0,3]),(1:ℚ)),((3,[1,2]),3),((3,[2,1]),3),((3,[3,0]),1)] =
      some ((3,[3,0]),1) := rfl
  have hdeg1 : esymDeg [3, 0] = 3 := rfl
  have hdeg2 : esymDeg [1, 1] = 3 := rfl
  have hins1 : insertMono esymDeg [] [3, 0] (1/1) = [((3,[3,0]),1)] := by
    norm_num [insertMono, emplace, lookup, insert_add_erase, hdeg1]
  have hh2 : highest_term [((3,[1,2]),(-3:ℚ)),((3,[2,1]),-3)] = some ((3,[2,1]),-3) := rfl
  have hfe2 : find_exponentE [2, 1] = [1, 1] := rfl
  have hhp2 : highest_term [((3,[1,2]),(1:ℚ)),((3,[2,1]),1)] = some ((3,[2,1]),1) := rfl
  have hins2 : insertMono esymDeg [((3,[3,0]),1)] [1, 1] (-3/1) =
      [((3,[1,1]),-3),((3,[3,0]),1)] := by
    norm_num [insertMono, emplace, lookup, insert_add_erase, hdeg2, keyLt, lexLt]
  have hsm2 : smulPoly (-3/1) [((3,[1,2]),(1:ℚ)),((3,[2,1]),1)] =
      [((3,[1,2]),-3),((3,[2,1]),-3)] := by
    norm_num [smulPoly]
  have hfexp : (eBasis 2).fexp = find_exponentE := rfl
  have hdegG : (eBasis 2).degG = esymDeg := rfl
  have hne1 : ¬(([((3,[0,3]),1),((3,[3,0]),1)] : Poly) =
      [((3,[0,3]),1),((3,[1,2]),3),((3,[2,1]),3),((3,[3,0]),1)]) := by decide
  rw [forwardTrace]
  simp only [forwardLoopTrace, hh1, hfexp, hfe1, eprod_cube, hhp1, hdegG, hins1,
    esmul_one, hne1, esub_cubes, hh2, hfe2, eprod_e1e2, hhp2, hins2, hsm2,
    eq_self_iff_true, if_true, if_false, ite_false, ite_true]

/-- C4: the spec's strict-decrease claim fails for the degree sequence: on the
decomposable input `x₁³ + x₂³` (two variables, elementary-symmetric basis) the
forward loop records highest-term degrees `[3, 3]`, which is not strictly
decreasing. -/
theorem C4_counterexample :
    ∃ tr dec, forwardTrace (eBasis 2) 4 [((3,[0,3]),1),((3,[3,0]),1)] = some (tr, dec) ∧
      tr.map Prod.fst = [3, 3] ∧ ¬ List.Chain' (fun d e => e < d) (tr.map Prod.fst) := by
  refine ⟨[(3,[3,0]), (3,[2,1])], [((3,[1,1]),-3),((3,[3,0]),1)],
    forwardTrace_x13_x23, rfl, ?_⟩
  intro hch
  rw [List.map_cons, List.map_cons, List.map_nil] at hch
  rcases List.chain'_cons.1 hch with ⟨hlt, _⟩
  exact absurd hlt (by decide)

/-- C4 (amended): what strictly decreases across iterations of the forward
loop is the highest-term key in the (degree, lexicographic-exponent) order,
not the degree alone: whenever the scaled product's highest term matches the
current highest term (key equal, coefficient nonzero), every term left after
the subtraction — in particular the next iteration's highest term — has key
strictly below the key just visited. -/
theorem C4_trace_keys_decrease (B : Basis) (a : Poly) (mx ph : Entry)
    (ha : Inv a) (hmx : highest_term a = some mx)
    (hprod : Inv (computeProduct B (B.fexp mx.1.2)))
    (hph : highest_term (computeProduct B (B.fexp mx.1.2)) = some ph)
    (hkey : ph.1 = mx.1) (hc : ph.2 ≠ 0) :
    ∀ f ∈ subPoly a (smulPoly (mx.2 / ph.2) (computeProduct B (B.fexp mx.1.2))),
      keyLt f.1 mx.1 = true := by
  obtain ⟨hsa, hza⟩ := ha
  obtain ⟨hsp, hzp⟩ := hprod
  have hmx2 : mx.2 ≠ 0 := hza mx (getLast?_mem hmx)
  have hssm : Sorted (smulPoly (mx.2 / ph.2) (computeProduct B (B.fexp mx.1.2))) :=
    smulPoly_sorted hsp _
  have hzsm : NoZero (smulPoly (mx.2 / ph.2) (computeProduct B (B.fexp mx.1.2))) :=
    smulPoly_nozero hzp _
  intro f hf
  have hfe : lookup (subPoly a (smulPoly (mx.2 / ph.2)
      (computeProduct B (B.fexp mx.1.2)))) f.1 = f.2 :=
    lookup_mem (subPoly_sorted hsa) f hf
  have hnz : f.2 ≠ 0 := subPoly_nozero hza hzsm f hf
  rw [subPoly_lookup hsa hssm, smulPoly_lookup] at hfe
  rcases keyLt_trichotomy f.1 mx.1 with h | h | h
  · exact h
  · exfalso
    rw [h] at hfe
    have hpl : lookup (computeProduct B (B.fexp mx.1.2)) mx.1 = ph.2 := by
      have hpl0 := lookup_last hsp hph
      rw [hkey] at hpl0
      exact hpl0
    have hcan : ph.2 * (mx.2 / ph.2) = mx.2 := by field_simp
    rw [lookup_last hsa hmx, hpl, hcan, sub_self] at hfe
    exact hnz hfe.symm
  · exfalso
    have hga : lookup a f.1 = 0 := lookup_gt_last hsa hmx h
    have hgp : lookup (computeProduct B (B.fexp mx.1.2)) f.1 = 0 := by
      refine lookup_gt_last hsp hph ?_
      rw [hkey]
      exact h
    rw [hga, hgp, zero_mul, sub_zero] at hfe
    exact hnz hfe.symm

/-- Witness for the amended C4 at the `x₁³ + x₂³` run: both remaining keys
after the first subtraction are strictly below the visited key `(3, x₁³)`. -/
theorem C4_trace_keys_decrease_witness :
    keyLt (3, [1, 2]) (3, [3, 0]) = true ∧ keyLt (3, [2, 1]) (3, [3, 0]) = true := by
  have hfe : (eBasis 2).fexp ((((3:ℤ),([3,0]:Exp)),(1:ℚ)) : Entry).1.2 = [3, 0] := rfl
  have h1 := C4_trace_keys_decrease (eBasis 2) [((3,[0,3]),1),((3,[3,0]),1)]
      ((((3:ℤ),([3,0]:Exp)),(1:ℚ)) : Entry) ((((3:ℤ),([3,0]:Exp)),(1:ℚ)) : Entry)
      ⟨by unfold Sorted; decide, by unfold NoZero; decide⟩
      rfl
      (by rw [hfe, eprod_cube]
          exact ⟨by unfold Sorted; decide, by unfold NoZero; decide⟩)
      (by rw [hfe, eprod_cube]; rfl)
      rfl
      (by decide)
  have hm1 : (((3:ℤ),([1,2]:Exp)),(-3:ℚ)) ∈ subPoly [((3,[0,3]),1),((3,[3,0]),1)]
      (smulPoly ((1:ℚ)/1) (computeProduct (eBasis 2)
        ((eBasis 2).fexp ((((3:ℤ),([3,0]:Exp)),(1:ℚ)) : Entry).1.2))) := by
    rw [hfe, eprod_cube, esmul_one, esub_cubes]
    decide
  have hm2 : (((3:ℤ),([2,1]:Exp)),(-3:ℚ)) ∈ subPoly [((3,[0,3]),1),((3,[3,0]),1)]
      (smulPoly ((1:ℚ)/1) (computeProduct (eBasis 2)
        ((eBasis 2).fexp ((((3:ℤ),([3,0]:Exp)),(1:ℚ)) : Entry).1.2))) := by
    rw [hfe, eprod_cube, esmul_one, esub_cubes]
    decide
  exact ⟨h1 _ hm1, h1 _ hm2⟩
/-- Concrete round-trip check for the forward/backward pair on `x₁³ + x₂³`:
expanding the decomposition `e₁³ - 3·e₁e₂` produced by the forward loop
(theorem above) returns the original polynomial, structurally. -/
theorem backward_x13_x23 :
    backward (eBasis 2) [((3,[1,1]),-3),((3,[3,0]),1)] = [((3,[0,3]),1),((3,[3,0]),1)] := by
  have hsm3 : smulPoly (-3 : ℚ) [((3,[1,2]),(1:ℚ)),((3,[2,1]),1)] =
      [((3,[1,2]),-3),((3,[2,1]),-3)] := by
    norm_num [smulPoly]
  have hadd1 : addPoly [] [((3,[1,2]),(-3:ℚ)),((3,[2,1]),-3)] =
      [((3,[1,2]),-3),((3,[2,1]),-3)] := by
    norm_num [addPoly, insert_add_erase, keyLt, lexLt]
  have hsm4 : smulPoly (1 : ℚ)
      [((3,[0,3]),(1:ℚ)),((3,[1,2]),3),((3,[2,1]),3),((3,[3,0]),1)] =
      [((3,[0,3]),(1:ℚ)),((3,[1,2]),3),((3,[2,1]),3),((3,[3,0]),1)] := by
    norm_num [smulPoly]
  have hadd2 : addPoly [((3,[1,2]),(-3:ℚ)),((3,[2,1]),-3)]
      [((3,[0,3]),(1:ℚ)),((3,[1,2]),3),((3,[2,1]),3),((3,[3,0]),1)] =
      [((3,[0,3]),1),((3,[3,0]),1)] := by
    norm_num [addPoly, insert_add_erase, keyLt, lexLt]
  rw [backward]
  simp only [List.foldl_cons, List.foldl_nil, eprod_e1e2, eprod_cube,
    hsm3, hadd1, hsm4, hadd2]
